import Mathlib

/-!
Verification development for the `go-imgcrawler` repository: a distributed
web crawler whose workers coordinate through a shared Redis store.

The development embeds, as executable Lean definitions:

* the URL resolution / canonicalization pipeline (`resolveURLs`,
  `toSanitizedString`), with the external `net/url` and `purell` libraries
  modelled by a structured URL type and explicit normalization passes;
* the HTML extraction functions (`parse`, `matchTag`), with the external
  `x/net/html` tokenizer modelled by a list of structured tokens;
* the fetch/scrape pipeline (`scrape`) and the error-handling branches of
  the worker loops (`crawlIter`, `runAfterIncr`, `runAfterDecr`);
* the multi-worker crawl protocol of `Crawler.Run` / `Crawler.RunN` as a
  small-step transition system (`WStep`) over a shared configuration,
  together with fair interleavings (`Exec`), used to settle the
  termination and coverage properties.
-/

set_option maxHeartbeats 1000000

/-! ### Character-list utilities

Executable helpers over `List Char`, used to model the string manipulation
performed by Go's `net/url`, `strings` and `purell` packages.  They are kept
fully structural so that concrete instances evaluate inside the kernel.
-/

/-- Split a character list at every occurrence of `c` (Go `strings.Split`).
The result is always nonempty; separators are not kept. -/
def splitChar (c : Char) : List Char → List (List Char)
  | [] => [[]]
  | x :: rest =>
    match splitChar c rest with
    | [] => if x = c then [[], []] else [[x]]
    | h :: t => if x = c then [] :: h :: t else (x :: h) :: t

/-- Join character lists with the separator `c` (Go `strings.Join`). -/
def joinChar (c : Char) : List (List Char) → List Char
  | [] => []
  | [s] => s
  | s :: rest => s ++ c :: joinChar c rest

/-- Split at the first occurrence of `c`: returns the part before it and the
part after it (empty when `c` does not occur). -/
def splitOnceChar (c : Char) : List Char → List Char × List Char
  | [] => ([], [])
  | x :: rest =>
    if x = c then ([], rest)
    else
      let p := splitOnceChar c rest
      (x :: p.1, p.2)

/-- Byte-wise lexicographic comparison on character lists, as used by Go's
`sort.Strings` on the ASCII data appearing in query strings. -/
def lexLe : List Char → List Char → Bool
  | [], _ => true
  | _ :: _, [] => false
  | a :: as, b :: bs =>
    if a.toNat < b.toNat then true
    else if b.toNat < a.toNat then false
    else lexLe as bs

/-- Insert into a `lexLe`-sorted list (insertion step of `sort.Strings`). -/
def insertSorted (x : List Char) : List (List Char) → List (List Char)
  | [] => [x]
  | y :: ys => if lexLe x y then x :: y :: ys else y :: insertSorted x ys

/-- Sort a list of character lists by `lexLe` (models `sort.Strings`). -/
def sortLex : List (List Char) → List (List Char)
  | [] => []
  | x :: xs => insertSorted x (sortLex xs)

/-- Model of Go `strings.HasPrefix` on strings. -/
def startsWithStr (s pat : String) : Bool :=
  pat.data.isPrefixOf s.data

/-! ### URL model

`URLM` models the fields of Go's `net/url.URL` that the crawler exercises:
scheme, host (authority without userinfo), path, raw query and fragment.
Userinfo, opaque URLs and percent-encoding are outside the fragment of the
library behaviour the crawler's specification claims depend on, and are not
modelled.
-/

/-- Structured URL: the fields of `net/url.URL` used by the crawler. -/
structure URLM where
  scheme : String
  host : String
  path : String
  query : String
  frag : String
deriving DecidableEq, Repr

/-- Scheme characters accepted by `net/url`'s `getScheme`
(`[a-zA-Z0-9+-.]`). -/
def isSchemeChar (c : Char) : Bool :=
  c.isAlpha || c.isDigit || c = '+' || c = '-' || c = '.'

/-- Scan for a leading `scheme://` part: returns the scheme and the
remainder after `://` when the input starts with scheme characters followed
by `://` (models the scheme detection of `net/url.Parse`). -/
def findSchemeSep : List Char → Option (List Char × List Char)
  | [] => none
  | ':' :: '/' :: '/' :: rest => some ([], rest)
  | c :: rest =>
    if isSchemeChar c then
      match findSchemeSep rest with
      | none => none
      | some p => some (c :: p.1, p.2)
    else none

/-- Modelled from `net/url.Parse` restricted to the http-style URLs the
crawler handles: the fragment is the part after the first `#`, the raw query
the part after the first `?` of the rest, a leading `scheme://` or `//`
introduces an authority, and everything else is the path.  Parse failure is
modelled for ASCII control characters, which `net/url.Parse` rejects
(`invalid control character in URL`); such strings are the unparsable
inputs the resolver claims are dropped silently. -/
def parseURL (s : String) : Option URLM :=
  let cs := s.data
  if cs.any fun c => c.toNat < 32 || c.toNat = 127 then none
  else
    let pf := splitOnceChar '#' cs
    let pq := splitOnceChar '?' pf.1
    match findSchemeSep pq.1 with
    | some p =>
      let hostPath := splitOnceChar '/' p.2
      let path := if (splitChar '/' p.2).length = 1 then [] else '/' :: hostPath.2
      some ⟨⟨p.1⟩, ⟨hostPath.1⟩, ⟨path⟩, ⟨pq.2⟩, ⟨pf.2⟩⟩
    | none =>
      match pq.1 with
      | '/' :: '/' :: rest =>
        let hostPath := splitOnceChar '/' rest
        let path := if (splitChar '/' rest).length = 1 then [] else '/' :: hostPath.2
        some ⟨"", ⟨hostPath.1⟩, ⟨path⟩, ⟨pq.2⟩, ⟨pf.2⟩⟩
      | other => some ⟨"", "", ⟨other⟩, ⟨pq.2⟩, ⟨pf.2⟩⟩

/-- Modelled from `net/url.URL.Hostname`: the host with any trailing
`:port` removed. -/
def hostname (u : URLM) : String :=
  ⟨u.host.data.takeWhile fun c => c ≠ ':'⟩

/-- Modelled from `net/url`'s `resolvePath` without the dot-segment pass
(dot segments are removed once during canonicalization, where purell's
`FlagRemoveDotSegments` performs the same rewrite): an empty reference
keeps the base path, a rooted reference replaces it, and a relative
reference replaces everything after the last `/` of the base. -/
def resolvePath (base ref : List Char) : List Char :=
  match ref with
  | [] => base
  | '/' :: _ => ref
  | _ =>
    let cut := (base.reverse.dropWhile fun c => c ≠ '/').reverse
    cut ++ ref

/-- Modelled from `net/url.URL.ResolveReference`: a reference with a scheme
is taken as is; a protocol-relative reference takes the base scheme; an
empty relative reference (no path and no query) inherits the base's path,
query and fragment; any other relative reference resolves its path against
the base path. -/
def resolveReference (base ref : URLM) : URLM :=
  if ref.scheme ≠ "" then ref
  else if ref.host ≠ "" then { ref with scheme := base.scheme }
  else if ref.path = "" ∧ ref.query = "" then
    { scheme := base.scheme, host := base.host, path := base.path,
      query := base.query,
      frag := if ref.frag = "" then base.frag else ref.frag }
  else
    { scheme := base.scheme, host := base.host,
      path := ⟨resolvePath base.path.data ref.path.data⟩,
      query := ref.query, frag := ref.frag }

/-- Remove `.` segments and resolve `..` segments of a path split on `/`
(the dot-segment pass shared by `resolvePath` and purell's
`FlagRemoveDotSegments`). -/
def removeDotsAux : List (List Char) → List (List Char) → List (List Char)
  | acc, [] => acc.reverse
  | acc, seg :: rest =>
    if seg = ['.'] then removeDotsAux acc rest
    else if seg = ['.', '.'] then removeDotsAux (acc.drop 1) rest
    else removeDotsAux (seg :: acc) rest

/-- Dot-segment removal on a raw path. -/
def removeDotSegs (p : List Char) : List Char :=
  joinChar '/' (removeDotsAux [] (splitChar '/' p))

/-- Collapse runs of duplicate `/` in a path (purell
`FlagRemoveDuplicateSlashes`). -/
def collapseSlashes : List Char → List Char
  | [] => []
  | [c] => [c]
  | c1 :: c2 :: rest =>
    if c1 = '/' ∧ c2 = '/' then collapseSlashes (c2 :: rest)
    else c1 :: collapseSlashes (c2 :: rest)

/-- Drop a single trailing `/` from a path (purell
`FlagRemoveTrailingSlash`). -/
def removeTrailingSlash (p : List Char) : List Char :=
  if p.getLast? = some '/' then p.dropLast else p

/-- Sort the `&`-separated parameters of a raw query (purell
`FlagSortQuery`). -/
def sortQueryStr (q : String) : String :=
  if q = "" then "" else ⟨joinChar '&' (sortLex (splitChar '&' q.data))⟩

/-- Lowercase a string (purell `FlagLowercaseScheme` /
`FlagLowercaseHost`). -/
def lowerStr (s : String) : String :=
  ⟨s.data.map Char.toLower⟩

/-- Drop the default port of the scheme from a host (purell
`FlagRemoveDefaultPort`). -/
def removeDefaultPort (host : List Char) (scheme : String) : List Char :=
  let strip := fun suf : List Char =>
    if suf.isSuffixOf host then host.take (host.length - suf.length) else host
  if scheme = "http" then strip [':', '8', '0']
  else if scheme = "https" then strip [':', '4', '4', '3'] else host

/-- Modelled from `toSanitizedString` in `crawler.go`: purell's
`NormalizeURL` with `FlagsUsuallySafeGreedy | FlagRemoveFragment |
FlagRemoveDuplicateSlashes | FlagSortQuery`.  The fragment is stripped,
scheme and host are lowercased, the default port is dropped, dot segments
and duplicate slashes are removed from the path, a trailing slash is
dropped, and query parameters are sorted.  Percent-encoding normalization
(a no-op on the unescaped URLs the claims exercise) is not modelled. -/
def toSanitizedString (u : URLM) : String :=
  let scheme := lowerStr u.scheme
  let host := removeDefaultPort (lowerStr u.host).data scheme
  let path := removeTrailingSlash (collapseSlashes (removeDotSegs u.path.data))
  let query := sortQueryStr u.query
  ⟨scheme.data ++ [':', '/', '/'] ++ host ++ path ++
    (if query = "" then [] else '?' :: query.data)⟩

/-! ### `resolveURLs` — the repository's URL resolver

Embedded from `resolveURLs` in `crawler.go`.
-/

/-- The loop body of `resolveURLs`: for each raw link, parse it (silently
dropping unparsable ones), resolve it against the base, optionally drop
links whose hostname differs from the base hostname, and canonicalize the
survivors, preserving order. -/
def resolveLoop (baseURL : URLM) (skipExternal : Bool) : List String → List String
  | [] => []
  | url :: rest =>
    match parseURL url with
    | none => resolveLoop baseURL skipExternal rest
    | some parsed =>
      let absolute := resolveReference baseURL parsed
      if skipExternal && (hostname absolute != hostname baseURL) then
        resolveLoop baseURL skipExternal rest
      else toSanitizedString absolute :: resolveLoop baseURL skipExternal rest

/-- Embedded from `resolveURLs` in `crawler.go`: parse the base (returning
the empty list when it fails), then run the resolution loop. -/
def resolveURLs (base : String) (urls : List String) (skipExternal : Bool) : List String :=
  match parseURL base with
  | none => []
  | some baseURL => resolveLoop baseURL skipExternal urls

/-- One link of the resolver pipeline, phrased from the specification's
words (parse, silently drop on failure, resolve against the base, apply the
same-origin filter, canonicalize): used to state that `resolveURLs` refines
this description. -/
def resolveOneSpec (baseURL : URLM) (skipExternal : Bool) (url : String) : Option String :=
  (parseURL url).bind fun parsed =>
    let absolute := resolveReference baseURL parsed
    if skipExternal && (hostname absolute != hostname baseURL) then none
    else some (toSanitizedString absolute)

/-! ### HTML extraction

Embedded from `parse` and `matchTag` in `crawler.go`.  The external
`x/net/html` tokenizer is modelled by a list of structured tokens; the
tokenizer's `ErrorToken` (which ends the repository's token loop, also for
malformed input) corresponds to the end of the list.
-/

/-- Token kinds distinguished by the crawler's token loop. -/
inductive TokenType where
  | startTag
  | selfClosingTag
  | other
deriving DecidableEq, Repr

/-- Model of `x/net/html.Token`: kind, tag name, and attributes. -/
structure Token where
  typ : TokenType
  data : String
  attrs : List (String × String)
deriving DecidableEq, Repr

/-- The attribute-scanning loop of `matchTag`: the value of the first
attribute named `attrName`, or the zero value `""` when none exists. -/
def findAttr (attrName : String) : List (String × String) → String
  | [] => ""
  | a :: rest => if a.1 = attrName then a.2 else findAttr attrName rest

/-- Embedded from `matchTag` in `crawler.go`: report whether the token's
tag name matches, and if so the value of the named attribute (the empty
string when the attribute is absent). -/
def matchTag (tok : Token) (tag attrName : String) : Bool × String :=
  if tok.data = tag then (true, findAttr attrName tok.attrs)
  else (false, "")

/-- Embedded from `parse` in `crawler.go`: walk the token stream and
collect the `src` of every `img` start/self-closing tag and the `href` of
every `a` start/self-closing tag, in order.  Returns `(imgSrcs, hrefs)`. -/
def parse : List Token → List String × List String
  | [] => ([], [])
  | tok :: rest =>
    let acc := parse rest
    if tok.typ = TokenType.startTag ∨ tok.typ = TokenType.selfClosingTag then
      let img := matchTag tok "img" "src"
      let anchor := matchTag tok "a" "href"
      ((if img.1 then img.2 :: acc.1 else acc.1),
       (if anchor.1 then anchor.2 :: acc.2 else acc.2))
    else acc

/-! ### The fetch/scrape pipeline and worker error branches

Embedded from `scrape`, `crawl` and `Run` in `crawler.go`.  The HTTP client
and the Redis client are external collaborators; their replies are modelled
by explicit reply types, and each branch of the repository's code on those
replies is translated directly.
-/

/-- Reply of `http.Get`: a transport error, or a response with a
content-type header and a tokenized body. -/
inductive FetchReply where
  | err
  | ok (contentType : String) (body : List Token)

/-- Result of `scrape`.  `fatalExit` models the `log.Fatal(err)` branch,
which terminates the entire process; `ok hrefs imgSrcs` models a normal
return. -/
inductive ScrapeResult where
  | fatalExit
  | ok (hrefs imgSrcs : List String)
deriving DecidableEq

/-- Embedded from `scrape` in `crawler.go`: on a transport error,
`log.Fatal` (process exit); when the content-type does not start with
`text/html`, return two empty slices; otherwise extract and resolve image
sources (any origin) and hrefs (same origin only). -/
def scrape (url : String) (reply : FetchReply) : ScrapeResult :=
  match reply with
  | FetchReply.err => ScrapeResult.fatalExit
  | FetchReply.ok ct body =>
    if startsWithStr ct "text/html" then
      let acc := parse body
      ScrapeResult.ok (resolveURLs url acc.2 true) (resolveURLs url acc.1 false)
    else ScrapeResult.ok [] []

/-- Reply of the `SPOP` claim against the crawl queue: a member, the
`redis.ErrNil` signal for an empty set, or a transport error. -/
inductive PopReply where
  | ok (url : String)
  | errNil
  | err
deriving DecidableEq

/-- Reply of the `SADD` dedup insert against the visited set. -/
inductive MarkReply where
  | ok (inserted : Int)
  | err
deriving DecidableEq

/-- Control-flow outcome of one iteration of the `crawl` claim loop. -/
inductive CrawlOutcome where
  | exitLoop
  | continueLoop
  | scrapedAndPushed (url : String)
deriving DecidableEq

/-- Embedded from the `crawl` loop in `crawler.go`: `SPOP` error other than
`ErrNil` — log and `continue`; `ErrNil` — return; `SADD` error — log and
`continue`; `inserted == 0` — skip; otherwise scrape and push. -/
def crawlIter (pop : PopReply) (mark : String → MarkReply) : CrawlOutcome :=
  match pop with
  | PopReply.errNil => CrawlOutcome.exitLoop
  | PopReply.err => CrawlOutcome.continueLoop
  | PopReply.ok url =>
    match mark url with
    | MarkReply.err => CrawlOutcome.continueLoop
    | MarkReply.ok inserted =>
      if inserted = 0 then CrawlOutcome.continueLoop
      else CrawlOutcome.scrapedAndPushed url

/-- Reply of an integer-valued Redis command (`INCR`, `DECR`). -/
inductive IntReply where
  | ok (v : Int)
  | err
deriving DecidableEq

/-- Control flow of `Run` after a counter command. -/
inductive RunPhase where
  | returnNow
  | proceedToCrawl
  | spinWith (active : Int)
deriving DecidableEq

/-- Embedded from `Run` in `crawler.go`: an `INCR` error is logged and the
worker returns; otherwise it proceeds into `crawl`. -/
def runAfterIncr (r : IntReply) : RunPhase :=
  match r with
  | IntReply.err => RunPhase.returnNow
  | IntReply.ok _ => RunPhase.proceedToCrawl

/-- Embedded from `Run` in `crawler.go`: a `DECR` error is logged and the
worker returns; otherwise it enters the polling loop with the decremented
value. -/
def runAfterDecr (r : IntReply) : RunPhase :=
  match r with
  | IntReply.err => RunPhase.returnNow
  | IntReply.ok a => RunPhase.spinWith a

/-- Embedded from the push section of `crawl` in `crawler.go`: the scraped
image sources are `SADD`ed into the image-result set and the hrefs into the
crawl queue. -/
def pushResults (images crawlQ : Finset String) (hrefs imgSrcs : List String) :
    Finset String × Finset String :=
  (images ∪ imgSrcs.toFinset, crawlQ ∪ hrefs.toFinset)

/-! ### The crawl protocol as a transition system

`Crawler.Run` and `Crawler.RunN` are embedded as a small-step transition
system over a shared configuration.  The shared Redis store of the claims'
setting is the constructed in-memory stand-in: the crawl queue, visited set,
image set and active counter are configuration fields, and each Redis
command of the source (`INCR`, `SPOP`, `SADD`, `DECR`, `SCARD`, `GET`) is
one atomic transition.  The fetcher stand-in is a fixed finite closed graph:
scraping page `u` yields same-origin links `out u` and image sources
`imgs u`.
-/

/-- A finite, closed (no external links) crawl graph with one seed:
the in-memory Fetcher stand-in of the termination property. -/
structure CGraph (V : Type) where
  pages : Finset V
  seed : V
  out : V → Finset V
  imgs : V → Finset V
  seed_mem : seed ∈ pages
  closed : ∀ v ∈ pages, out v ⊆ pages

/-- Program counter of one worker, one value per atomic store command of
`Run`/`crawl`: `idle` before the `INCR`, `claim` at the `SPOP`, `mark u` at
the `SADD` dedup insert for the popped `u`, `scrape u` at the fetch and the
batched result push, `decr` at the `DECR`, `spin a` at the top of the
polling loop holding the last read counter value `a`, `sleeping` at the
`time.Sleep`, `readQ` at the `SCARD`, `readA` at the `GET`, and `done`
after the worker has returned. -/
inductive PC (V : Type) where
  | idle
  | claim
  | mark (u : V)
  | scrape (u : V)
  | decr
  | spin (a : Int)
  | sleeping
  | readQ
  | readA
  | done
deriving DecidableEq

/-- Shared configuration: the store's crawl queue (`frontier`), visited
set, image-result set and active-worker counter, plus each worker's program
counter. -/
@[ext]
structure Config (V : Type) (N : ℕ) where
  frontier : Finset V
  visited : Finset V
  images : Finset V
  active : Int
  pcs : Fin N → PC V

/-- Initial configuration: `Seed` has put the seed URL into the crawl
queue, nothing is visited, the counter is zero, and every worker of `RunN`
is about to execute its first `INCR`. -/
def initConfig {V : Type} [DecidableEq V] (g : CGraph V) (N : ℕ) : Config V N :=
  ⟨{g.seed}, ∅, ∅, 0, fun _ => PC.idle⟩

/-- One atomic step of worker `w`, embedded from `Run` and `crawl` in
`crawler.go` (fault-free store, as in the claims' in-memory stand-in):

* `incr`: the `INCR` at the top of the outer loop;
* `claimPop`/`claimEmpty`: the `SPOP` — an arbitrary member is removed, or
  `ErrNil` ends the claim loop;
* `markSkip`/`markNew`: the `SADD` into the visited set and the
  `inserted == 0` skip;
* `scrapeStep`: the fetch/extract of a newly visited page and the batched
  `SADD` push of its image sources and same-origin links;
* `decrStep`: the `DECR`, recording the decremented value;
* `spinDone`: `if active == 0 return` — the worker terminates;
* `spinSleep`/`sleepStep`: entering and leaving the `time.Sleep`;
* `readQBreak`/`readQEmpty`: the `SCARD` re-check of the queue;
* `readAStep`: the `GET` re-read of the counter;
* `doneStutter`: a terminated worker does nothing. -/
inductive WStep {V : Type} [DecidableEq V] (g : CGraph V) {N : ℕ} (w : Fin N) :
    Config V N → Config V N → Prop where
  | incr (s s' : Config V N) (h : s.pcs w = PC.idle)
      (h' : s' = { s with active := s.active + 1,
                          pcs := Function.update s.pcs w PC.claim }) :
      WStep g w s s'
  | claimPop (s s' : Config V N) (u : V) (h : s.pcs w = PC.claim)
      (hu : u ∈ s.frontier)
      (h' : s' = { s with frontier := s.frontier.erase u,
                          pcs := Function.update s.pcs w (PC.mark u) }) :
      WStep g w s s'
  | claimEmpty (s s' : Config V N) (h : s.pcs w = PC.claim)
      (he : s.frontier = ∅)
      (h' : s' = { s with pcs := Function.update s.pcs w PC.decr }) :
      WStep g w s s'
  | markSkip (s s' : Config V N) (u : V) (h : s.pcs w = PC.mark u)
      (hv : u ∈ s.visited)
      (h' : s' = { s with pcs := Function.update s.pcs w PC.claim }) :
      WStep g w s s'
  | markNew (s s' : Config V N) (u : V) (h : s.pcs w = PC.mark u)
      (hv : u ∉ s.visited)
      (h' : s' = { s with visited := insert u s.visited,
                          pcs := Function.update s.pcs w (PC.scrape u) }) :
      WStep g w s s'
  | scrapeStep (s s' : Config V N) (u : V) (h : s.pcs w = PC.scrape u)
      (h' : s' = { s with frontier := s.frontier ∪ g.out u,
                          images := s.images ∪ g.imgs u,
                          pcs := Function.update s.pcs w PC.claim }) :
      WStep g w s s'
  | decrStep (s s' : Config V N) (h : s.pcs w = PC.decr)
      (h' : s' = { s with active := s.active - 1,
                          pcs := Function.update s.pcs w (PC.spin (s.active - 1)) }) :
      WStep g w s s'
  | spinDone (s s' : Config V N) (h : s.pcs w = PC.spin 0)
      (h' : s' = { s with pcs := Function.update s.pcs w PC.done }) :
      WStep g w s s'
  | spinSleep (s s' : Config V N) (a : Int) (h : s.pcs w = PC.spin a)
      (ha : a ≠ 0)
      (h' : s' = { s with pcs := Function.update s.pcs w PC.sleeping }) :
      WStep g w s s'
  | sleepStep (s s' : Config V N) (h : s.pcs w = PC.sleeping)
      (h' : s' = { s with pcs := Function.update s.pcs w PC.readQ }) :
      WStep g w s s'
  | readQBreak (s s' : Config V N) (h : s.pcs w = PC.readQ)
      (hq : s.frontier ≠ ∅)
      (h' : s' = { s with pcs := Function.update s.pcs w PC.idle }) :
      WStep g w s s'
  | readQEmpty (s s' : Config V N) (h : s.pcs w = PC.readQ)
      (hq : s.frontier = ∅)
      (h' : s' = { s with pcs := Function.update s.pcs w PC.readA }) :
      WStep g w s s'
  | readAStep (s s' : Config V N) (h : s.pcs w = PC.readA)
      (h' : s' = { s with pcs := Function.update s.pcs w (PC.spin s.active) }) :
      WStep g w s s'
  | doneStutter (s s' : Config V N) (h : s.pcs w = PC.done) (h' : s' = s) :
      WStep g w s s'

/-- A (fairly scheduled) run of `RunN`: an infinite interleaving in which
at each instant one worker takes its next atomic step, every worker is
scheduled infinitely often (goroutines keep running), and the run starts
from the seeded initial configuration. -/
structure Exec {V : Type} [DecidableEq V] (g : CGraph V) (N : ℕ) : Type where
  states : ℕ → Config V N
  sched : ℕ → Fin N
  init_eq : states 0 = initConfig g N
  step : ∀ i, WStep g (sched i) (states i) (states (i + 1))
  fair : ∀ (w : Fin N) (i : ℕ), ∃ j, i ≤ j ∧ sched j = w

/-- `RunN` has returned: every worker has reached its terminal state. -/
def allDone {V : Type} {N : ℕ} (s : Config V N) : Prop :=
  ∀ w, s.pcs w = PC.done

/-- URLs reachable from the seed by following extracted same-origin
links. -/
inductive Reach {V : Type} (g : CGraph V) : V → Prop where
  | seed : Reach g g.seed
  | step {u v : V} : Reach g u → v ∈ g.out u → Reach g v

/-- Workers counted by the active counter: between their `INCR` and their
`DECR`, i.e. at the `SPOP`, `SADD`, scrape or `DECR` command. -/
def isActivePC {V : Type} : PC V → Bool
  | PC.claim => true
  | PC.mark _ => true
  | PC.scrape _ => true
  | PC.decr => true
  | _ => false

/-- Workers that may still pop from or push to the crawl queue before
seeing it empty: anywhere from the top of the outer loop through the claim
loop. -/
def isBusyPC {V : Type} : PC V → Bool
  | PC.idle => true
  | PC.claim => true
  | PC.mark _ => true
  | PC.scrape _ => true
  | _ => false

/-- Workers parked in the polling loop (or terminated): not holding any
store command that could repopulate the crawl queue. -/
def isParkedPC {V : Type} : PC V → Bool
  | PC.spin _ => true
  | PC.sleeping => true
  | PC.readQ => true
  | PC.readA => true
  | PC.done => true
  | _ => false

/-- Number of workers currently counted by the active counter. -/
def actCount {V : Type} {N : ℕ} (s : Config V N) : ℕ :=
  ∑ w, if isActivePC (s.pcs w) then 1 else 0

/-- A URL held by some worker between store operations: popped and about
to be dedup-checked, or extracted and about to be pushed. -/
def pendingIn {V : Type} (g : CGraph V) {N : ℕ} (s : Config V N) (x : V) : Prop :=
  ∃ w, s.pcs w = PC.mark x ∨ ∃ v, s.pcs w = PC.scrape v ∧ x ∈ g.out v

/-- Inductive invariant of the protocol. -/
structure CrawlInv {V : Type} [DecidableEq V] (g : CGraph V) {N : ℕ} (s : Config V N) : Prop where
  active_eq : s.active = (actCount s : Int)
  busy_of_frontier : s.frontier ≠ ∅ → ∃ w, isBusyPC (s.pcs w) = true
  closure : ∀ u ∈ s.visited, ∀ x ∈ g.out u,
    x ∈ s.visited ∨ x ∈ s.frontier ∨ pendingIn g s x
  seed_loc : g.seed ∈ s.visited ∨ g.seed ∈ s.frontier ∨ ∃ w, s.pcs w = PC.mark g.seed
  vis_reach : ∀ u ∈ s.visited, Reach g u
  fr_reach : ∀ u ∈ s.frontier, Reach g u
  mark_reach : ∀ w u, s.pcs w = PC.mark u → Reach g u
  scrape_reach : ∀ w u, s.pcs w = PC.scrape u → Reach g u

/-- Worker potential for the termination measure. -/
def phiPC {V : Type} (g : CGraph V) : PC V → ℕ
  | PC.done => 0
  | PC.claim => 0
  | PC.mark _ => 0
  | PC.decr => 0
  | PC.scrape _ => g.pages.card + 1
  | _ => 1

/-- Global termination measure: weakly decreases along every step, and
strictly decreases at pops, fresh visits, scrapes and terminations. -/
def phi {V : Type} [DecidableEq V] (g : CGraph V) {N : ℕ} (s : Config V N) : ℕ :=
  (g.pages.card + 2) * (g.pages \ s.visited).card + s.frontier.card +
    (∑ w, phiPC g (s.pcs w)) + s.active.toNat

/-- The `SADD` dedup insert (`MarkVisited`) for `u` is the command executed
at instant `i` of the run. -/
def markEventAt {V : Type} [DecidableEq V] {g : CGraph V} {N : ℕ} (E : Exec g N)
    (i : ℕ) (u : V) : Prop :=
  (E.states i).pcs (E.sched i) = PC.mark u

/-- At instant `i` the scheduled worker entered the extraction of `u`
(its `SADD` returned `inserted = 1`). -/
def scrapeEventAt {V : Type} [DecidableEq V] {g : CGraph V} {N : ℕ} (E : Exec g N)
    (i : ℕ) (u : V) : Prop :=
  (E.states (i + 1)).pcs (E.sched i) = PC.scrape u

/-- Concrete one-page closed graph used to exhibit a complete run. -/
def demoGraph : CGraph (Fin 1) :=
  ⟨{0}, 0, fun _ => ∅, fun _ => ∅, by decide, by decide⟩

/-- Concrete run of one worker on the one-page graph, one configuration per
instant; each configuration is literally the record update performed by the
step taken there. -/
def d0 : Config (Fin 1) 1 := initConfig demoGraph 1

/-- After the `INCR`. -/
def d1 : Config (Fin 1) 1 :=
  { d0 with active := d0.active + 1, pcs := Function.update d0.pcs 0 PC.claim }

/-- After popping the seed. -/
def d2 : Config (Fin 1) 1 :=
  { d1 with frontier := d1.frontier.erase 0,
            pcs := Function.update d1.pcs 0 (PC.mark 0) }

/-- After marking the seed visited (`inserted = 1`). -/
def d3 : Config (Fin 1) 1 :=
  { d2 with visited := insert 0 d2.visited,
            pcs := Function.update d2.pcs 0 (PC.scrape 0) }

/-- After scraping the seed page and pushing its (empty) results. -/
def d4 : Config (Fin 1) 1 :=
  { d3 with frontier := d3.frontier ∪ demoGraph.out 0,
            images := d3.images ∪ demoGraph.imgs 0,
            pcs := Function.update d3.pcs 0 PC.claim }

/-- After the `SPOP` returned `ErrNil`. -/
def d5 : Config (Fin 1) 1 :=
  { d4 with pcs := Function.update d4.pcs 0 PC.decr }

/-- After the `DECR` (observing zero active workers). -/
def d6 : Config (Fin 1) 1 :=
  { d5 with active := d5.active - 1,
            pcs := Function.update d5.pcs 0 (PC.spin (d5.active - 1)) }

/-- After the quiescence check: the worker has terminated. -/
def d7 : Config (Fin 1) 1 :=
  { d6 with pcs := Function.update d6.pcs 0 PC.done }

/-- The full concrete run: INCR, pop the seed, mark it visited, scrape it,
observe the queue empty, DECR to zero, observe quiescence, terminate, then
stutter. -/
def demoStates : ℕ → Config (Fin 1) 1
  | 0 => d0
  | 1 => d1
  | 2 => d2
  | 3 => d3
  | 4 => d4
  | 5 => d5
  | 6 => d6
  | _ + 7 => d7

/-- The one worker is scheduled at every instant. -/
def demoSched : ℕ → Fin 1 := fun _ => 0

/-- The concrete run is a fairly scheduled execution of the protocol. -/
def demoExec : Exec demoGraph 1 :=
  ⟨demoStates, demoSched, rfl,
   by
    intro i
    match i with
    | 0 => exact WStep.incr _ _ rfl rfl
    | 1 => exact WStep.claimPop _ _ 0 rfl (by decide) rfl
    | 2 => exact WStep.markNew _ _ 0 rfl (by decide) rfl
    | 3 => exact WStep.scrapeStep _ _ 0 rfl rfl
    | 4 => exact WStep.claimEmpty _ _ rfl (by decide) rfl
    | 5 => exact WStep.decrStep _ _ rfl rfl
    | 6 => exact WStep.spinDone _ _ (by decide) rfl
    | n + 7 => exact WStep.doneStutter _ _ rfl rfl,
   fun w i => ⟨i, Nat.le_refl i, Subsingleton.elim 0 w⟩⟩

/-- Two-worker configuration with worker 0 asleep in the polling loop and
worker 1 active at its `SPOP`, the queue non-empty. -/
def cfgSleepA : Config (Fin 1) 2 := ⟨{0}, ∅, ∅, 1, fun _ => PC.sleeping⟩

/-- `cfgSleepA` after worker 0 finishes its wait and moves to the `SCARD`
re-check. -/
def cfgSleepB : Config (Fin 1) 2 :=
  { cfgSleepA with pcs := Function.update cfgSleepA.pcs 0 PC.readQ }

/-- `cfgSleepB` after worker 0 observes the non-empty queue and breaks back
to the top of the outer loop. -/
def cfgSleepC : Config (Fin 1) 2 :=
  { cfgSleepB with pcs := Function.update cfgSleepB.pcs 0 PC.idle }

/-- `cfgSleepC` after worker 0 re-increments the active counter and resumes
claiming. -/
def cfgSleepD : Config (Fin 1) 2 :=
  { cfgSleepC with active := cfgSleepC.active + 1,
                   pcs := Function.update cfgSleepC.pcs 0 PC.claim }

/-- Two-worker configuration with worker 0 at the `SCARD` re-check and the
queue empty. -/
def cfgPollA : Config (Fin 1) 2 := ⟨∅, {0}, ∅, 1, fun _ => PC.readQ⟩

/-- `cfgPollA` after worker 0 observes the empty queue and moves to the
`GET` re-read of the counter. -/
def cfgPollB : Config (Fin 1) 2 :=
  { cfgPollA with pcs := Function.update cfgPollA.pcs 0 PC.readA }

/-- `cfgPollB` after worker 0 re-reads the counter and loops the quiescence
check. -/
def cfgPollC : Config (Fin 1) 2 :=
  { cfgPollB with pcs := Function.update cfgPollB.pcs 0 (PC.spin cfgPollB.active) }

/-! ### Basic lemmas about the resolver -/

/-- The resolver loop is the filter-map of the per-link pipeline described
by the specification. -/
theorem resolveLoop_eq_filterMap (baseURL : URLM) (skipExternal : Bool)
    (urls : List String) :
    resolveLoop baseURL skipExternal urls =
      urls.filterMap (resolveOneSpec baseURL skipExternal) := by
  induction urls with
  | nil => rfl
  | cons u rest ih =>
    simp only [resolveLoop, List.filterMap_cons, resolveOneSpec]
    cases h : parseURL u with
    | none => simpa [h] using ih
    | some p =>
      simp only [h, Option.some_bind]
      cases hc : skipExternal && (hostname (resolveReference baseURL p) != hostname baseURL) with
      | false => simp [hc, ih]
      | true => simp [hc, ih]

/-- Unfolding one parsable link of the resolver loop. -/
theorem resolveLoop_cons_some (baseURL p : URLM) (skipExternal : Bool)
    (u : String) (rest : List String) (h : parseURL u = some p) :
    resolveLoop baseURL skipExternal (u :: rest) =
      if skipExternal && (hostname (resolveReference baseURL p) != hostname baseURL) then
        resolveLoop baseURL skipExternal rest
      else
        toSanitizedString (resolveReference baseURL p) ::
          resolveLoop baseURL skipExternal rest := by
  simp only [resolveLoop, h]

/-! ### Claims about the functional pipeline -/

/-- C6: `resolveURLs` drops each link that fails to parse (silently),
resolves each parsable link to an absolute URL against the base, and drops
a resolved link exactly when `restrictToSameOrigin` is set and its hostname
differs from the base hostname — stated as the filter-map refinement of the
specification's per-link pipeline, together with the concrete
origin-filtering and unparsable-link instances. -/
theorem c6_resolver_filtering :
    (∀ (base : String) (urls : List String) (skipExternal : Bool),
      resolveURLs base urls skipExternal =
        match parseURL base with
        | none => []
        | some baseURL => urls.filterMap (resolveOneSpec baseURL skipExternal)) ∧
    resolveURLs "http://a.com/p" ["\x00", "http://b.com/q"] false = ["http://b.com/q"] ∧
    resolveURLs "http://a.com/p" ["http://b.com/q"] true = [] ∧
    resolveURLs "http://a.com/p" ["http://b.com/q"] false = ["http://b.com/q"] := by
  refine ⟨fun base urls skipExternal => ?_, by decide, by decide, by decide⟩
  unfold resolveURLs
  cases parseURL base with
  | none => rfl
  | some baseURL => exact resolveLoop_eq_filterMap baseURL skipExternal urls

/-- C7: canonicalization maps syntactically different but semantically
identical URLs to the same string: from any base, resolving
`http://a.com/x?b=2&a=1#frag` and `http://a.com//x?a=1&b=2` yields
identical canonical strings (fragment stripped, duplicate path separators
collapsed, query parameters sorted). -/
theorem c7_canonicalization_equivalence :
    ∀ (base : String) (skipExternal : Bool),
      resolveURLs base ["http://a.com/x?b=2&a=1#frag"] skipExternal =
      resolveURLs base ["http://a.com//x?a=1&b=2"] skipExternal := by
  intro base skipExternal
  unfold resolveURLs
  cases parseURL base with
  | none => rfl
  | some baseURL =>
    show resolveLoop baseURL skipExternal ["http://a.com/x?b=2&a=1#frag"] =
      resolveLoop baseURL skipExternal ["http://a.com//x?a=1&b=2"]
    rw [resolveLoop_cons_some baseURL ⟨"http", "a.com", "/x", "b=2&a=1", "frag"⟩
          skipExternal _ [] (by decide),
        resolveLoop_cons_some baseURL ⟨"http", "a.com", "//x", "a=1&b=2", ""⟩
          skipExternal _ [] (by decide)]
    have h1 : resolveReference baseURL ⟨"http", "a.com", "/x", "b=2&a=1", "frag"⟩ =
        ⟨"http", "a.com", "/x", "b=2&a=1", "frag"⟩ := rfl
    have h2 : resolveReference baseURL ⟨"http", "a.com", "//x", "a=1&b=2", ""⟩ =
        ⟨"http", "a.com", "//x", "a=1&b=2", ""⟩ := rfl
    rw [h1, h2]
    have hh : hostname ⟨"http", "a.com", "/x", "b=2&a=1", "frag"⟩ =
        hostname ⟨"http", "a.com", "//x", "a=1&b=2", ""⟩ := by decide
    have hs : toSanitizedString ⟨"http", "a.com", "/x", "b=2&a=1", "frag"⟩ =
        toSanitizedString ⟨"http", "a.com", "//x", "a=1&b=2", ""⟩ := by decide
    rw [hh, hs]

/-- C3 counterexample: a transport-level `SPOP` error (distinct from the
`ErrNil` empty-queue signal) makes the `crawl` loop log and `continue` with
the next claim, not exit; likewise a `SADD` error on the visited set. -/
theorem c3_counterexample :
    crawlIter PopReply.err (fun _ => MarkReply.ok 1) = CrawlOutcome.continueLoop ∧
    crawlIter PopReply.err (fun _ => MarkReply.ok 1) ≠ CrawlOutcome.exitLoop ∧
    crawlIter (PopReply.ok "http://a.com/p") (fun _ => MarkReply.err) =
      CrawlOutcome.continueLoop := by
  exact ⟨rfl, by decide, rfl⟩

/-- C3 (amended): errors from the `INCR` and `DECR` counter commands in
`Run` are logged and fatal to the worker (it returns), while errors from
the `SPOP` claim (other than the `ErrNil` empty-queue signal) and from the
`SADD` dedup insert inside the claim loop are logged and the loop continues
with the next claim; only the `ErrNil` empty-queue signal exits the claim
loop. -/
theorem c3_store_error_split :
    runAfterIncr IntReply.err = RunPhase.returnNow ∧
    runAfterDecr IntReply.err = RunPhase.returnNow ∧
    (∀ mark, crawlIter PopReply.err mark = CrawlOutcome.continueLoop) ∧
    (∀ url, crawlIter (PopReply.ok url) (fun _ => MarkReply.err) =
      CrawlOutcome.continueLoop) ∧
    (∀ mark, crawlIter PopReply.errNil mark = CrawlOutcome.exitLoop) := by
  exact ⟨rfl, rfl, fun _ => rfl, fun _ => rfl, fun _ => rfl⟩

/-- C4 counterexample: a network-level fetch failure makes `scrape` call
`log.Fatal`, terminating the whole process; no fetch-error outcome is
returned to the caller, so the worker does not continue with the next
claim. -/
theorem c4_counterexample :
    scrape "http://a.com/dead" FetchReply.err = ScrapeResult.fatalExit ∧
    ScrapeResult.fatalExit ≠ ScrapeResult.ok [] [] := by
  exact ⟨rfl, by decide⟩

/-- C4 (amended): for every URL whose HTTP retrieval fails at the network
level, `scrape` calls `log.Fatal` and the entire process exits — the error
is not reported to the caller and the worker's loop does not continue; a
successful fetch, HTML or not, never takes the fatal branch. -/
theorem c4_fetch_error_fatal :
    (∀ url, scrape url FetchReply.err = ScrapeResult.fatalExit) ∧
    (∀ url ct body, scrape url (FetchReply.ok ct body) ≠ ScrapeResult.fatalExit) := by
  constructor
  · intro url; rfl
  · intro url ct body
    unfold scrape
    cases h : startsWithStr ct "text/html" <;> simp [h]

/-- C5: for every fetched response whose content-type does not begin with
`text/html`, `scrape` returns two empty sequences, and pushing two empty
sequences enqueues nothing and adds no image result. -/
theorem c5_non_html_skip :
    ∀ (ct : String), startsWithStr ct "text/html" = false →
      ∀ (url : String) (body : List Token) (images crawlQ : Finset String),
        scrape url (FetchReply.ok ct body) = ScrapeResult.ok [] [] ∧
        pushResults images crawlQ [] [] = (images, crawlQ) := by
  intro ct h url body images crawlQ
  constructor
  · show (if startsWithStr ct "text/html" = true then
        let acc := parse body
        ScrapeResult.ok (resolveURLs url acc.2 true) (resolveURLs url acc.1 false)
      else ScrapeResult.ok [] []) = ScrapeResult.ok [] []
    rw [h]
    simp
  · unfold pushResults
    simp

/-- C5 witness: the `application/pdf` instance. -/
theorem c5_witness :
    startsWithStr "application/pdf" "text/html" = false ∧
    scrape "http://a.com/doc.pdf" (FetchReply.ok "application/pdf" []) =
      ScrapeResult.ok [] [] ∧
    pushResults ∅ ∅ [] [] = (∅, ∅) :=
  ⟨by decide,
   (c5_non_html_skip "application/pdf" (by decide) "http://a.com/doc.pdf" [] ∅ ∅).1,
   (c5_non_html_skip "application/pdf" (by decide) "http://a.com/doc.pdf" [] ∅ ∅).2⟩

/-- C10: an `img` start or self-closing tag with no `src` attribute yields
the empty string as its collected `src`; the extractor collects that empty
string; resolving the empty string against the page URL yields the page's
own canonical URL; and every resolved image source is added to the
image-result set by the push. -/
theorem c10_empty_src_collection :
    (∀ (t : TokenType) (attrs : List (String × String)),
        (∀ a ∈ attrs, a.1 ≠ "src") →
        matchTag ⟨t, "img", attrs⟩ "img" "src" = (true, "")) ∧
    (∀ (t : TokenType) (attrs : List (String × String)) (rest : List Token),
        t = TokenType.startTag ∨ t = TokenType.selfClosingTag →
        (∀ a ∈ attrs, a.1 ≠ "src") →
        (parse (⟨t, "img", attrs⟩ :: rest)).1 = "" :: (parse rest).1) ∧
    (∀ (u : String) (bu : URLM), parseURL u = some bu →
        resolveURLs u [""] false = [toSanitizedString bu]) ∧
    (∀ (images crawlQ : Finset String) (hrefs imgSrcs : List String) (x : String),
        x ∈ imgSrcs → x ∈ (pushResults images crawlQ hrefs imgSrcs).1) := by
  have hfind : ∀ (attrs : List (String × String)), (∀ a ∈ attrs, a.1 ≠ "src") →
      findAttr "src" attrs = "" := by
    intro attrs h
    induction attrs with
    | nil => rfl
    | cons a rest ih =>
      have ha := h a (List.mem_cons_self a rest)
      simp only [findAttr]
      rw [if_neg ha]
      exact ih fun b hb => h b (List.mem_cons_of_mem a hb)
  have hmatch : ∀ (t : TokenType) (attrs : List (String × String)),
      (∀ a ∈ attrs, a.1 ≠ "src") →
      matchTag ⟨t, "img", attrs⟩ "img" "src" = (true, "") := by
    intro t attrs h
    unfold matchTag
    rw [if_pos rfl, hfind attrs h]
  refine ⟨hmatch, ?_, ?_, ?_⟩
  · intro t attrs rest ht h
    simp only [parse]
    rcases ht with ht | ht <;> rw [ht] <;>
      simp [hmatch _ attrs h, matchTag, hfind attrs h]
  · intro u bu h
    unfold resolveURLs
    rw [h]
    rfl
  · intro images crawlQ hrefs imgSrcs x hx
    unfold pushResults
    simp [hx]

/-- C10 witness: a concrete `img` tag without `src` on a concrete page. -/
theorem c10_witness :
    matchTag ⟨TokenType.startTag, "img", [("alt", "logo")]⟩ "img" "src" = (true, "") ∧
    (parse [⟨TokenType.startTag, "img", [("alt", "logo")]⟩]).1 = [""] ∧
    resolveURLs "http://a.com/page?b=2&a=1#top" [""] false =
      ["http://a.com/page?a=1&b=2"] ∧
    "" ∈ (pushResults ∅ ∅ [] [""]).1 := by
  refine ⟨c10_empty_src_collection.1 TokenType.startTag [("alt", "logo")] (by decide),
    ?_, ?_, c10_empty_src_collection.2.2.2 ∅ ∅ [] [""] "" (by decide)⟩
  · have h := c10_empty_src_collection.2.1 TokenType.startTag [("alt", "logo")] []
      (Or.inl rfl) (by decide)
    rw [h]
    rfl
  · have h := c10_empty_src_collection.2.2.1 "http://a.com/page?b=2&a=1#top"
      ⟨"http", "a.com", "/page", "b=2&a=1", "top"⟩ (by decide)
    rw [h]
    decide

/-! ### Inversion lemmas for the protocol steps -/

section StepLemmas

variable {V : Type} [DecidableEq V] {g : CGraph V} {N : ℕ} {w w' : Fin N}
variable {s s' : Config V N}

/-- Steps of one worker leave every other worker's program counter
unchanged. -/
theorem wstep_pcs_other (hstep : WStep g w s s') (hw : w' ≠ w) :
    s'.pcs w' = s.pcs w' := by
  cases hstep <;> subst_vars <;>
    first
      | rfl
      | exact Function.update_noteq hw _ _

/-- A worker at the `INCR` increments the counter and moves to the
claim loop. -/
theorem step_of_idle (hstep : WStep g w s s') (hp : s.pcs w = PC.idle) :
    s' = { s with active := s.active + 1,
                  pcs := Function.update s.pcs w PC.claim } := by
  cases hstep
  case incr h h' => exact h'
  all_goals simp_all

/-- A worker at the `SPOP` either observes the empty queue and heads to its
`DECR`, or removes some member and proceeds to mark it. -/
theorem step_of_claim (hstep : WStep g w s s') (hp : s.pcs w = PC.claim) :
    (s.frontier = ∅ ∧ s' = { s with pcs := Function.update s.pcs w PC.decr }) ∨
    ∃ u ∈ s.frontier,
      s' = { s with frontier := s.frontier.erase u,
                    pcs := Function.update s.pcs w (PC.mark u) } := by
  cases hstep
  case claimPop u h hu h' => exact Or.inr ⟨u, hu, h'⟩
  case claimEmpty h he h' => exact Or.inl ⟨he, h'⟩
  all_goals simp_all

/-- A worker at the `SADD` dedup insert either skips an already visited
URL or records it and proceeds to scrape it. -/
theorem step_of_mark {u : V} (hstep : WStep g w s s') (hp : s.pcs w = PC.mark u) :
    (u ∈ s.visited ∧ s' = { s with pcs := Function.update s.pcs w PC.claim }) ∨
    (u ∉ s.visited ∧
      s' = { s with visited := insert u s.visited,
                    pcs := Function.update s.pcs w (PC.scrape u) }) := by
  cases hstep
  case markSkip u' h hv h' =>
    rw [hp] at h
    injection h with hu
    subst hu
    exact Or.inl ⟨hv, h'⟩
  case markNew u' h hv h' =>
    rw [hp] at h
    injection h with hu
    subst hu
    exact Or.inr ⟨hv, h'⟩
  all_goals simp_all

/-- A scraping worker pushes the page's links and image sources and goes
back to the claim loop. -/
theorem step_of_scrape {u : V} (hstep : WStep g w s s') (hp : s.pcs w = PC.scrape u) :
    s' = { s with frontier := s.frontier ∪ g.out u,
                  images := s.images ∪ g.imgs u,
                  pcs := Function.update s.pcs w PC.claim } := by
  cases hstep
  case scrapeStep u' h h' =>
    rw [hp] at h
    injection h with hu
    subst hu
    exact h'
  all_goals simp_all

/-- A worker at the `DECR` decrements the counter and enters the polling
loop holding the decremented value. -/
theorem step_of_decr (hstep : WStep g w s s') (hp : s.pcs w = PC.decr) :
    s' = { s with active := s.active - 1,
                  pcs := Function.update s.pcs w (PC.spin (s.active - 1)) } := by
  cases hstep
  case decrStep h h' => exact h'
  all_goals simp_all

/-- At the top of the polling loop a worker terminates when its held value
is zero and otherwise goes to sleep. -/
theorem step_of_spin {a : Int} (hstep : WStep g w s s') (hp : s.pcs w = PC.spin a) :
    (a = 0 ∧ s' = { s with pcs := Function.update s.pcs w PC.done }) ∨
    (a ≠ 0 ∧ s' = { s with pcs := Function.update s.pcs w PC.sleeping }) := by
  cases hstep
  case spinDone h h' =>
    rw [hp] at h
    injection h with ha
    exact Or.inl ⟨ha, h'⟩
  case spinSleep a' h ha h' =>
    rw [hp] at h
    injection h with ha'
    subst ha'
    exact Or.inr ⟨ha, h'⟩
  all_goals simp_all

/-- A sleeping worker wakes up to the `SCARD` re-check. -/
theorem step_of_sleeping (hstep : WStep g w s s') (hp : s.pcs w = PC.sleeping) :
    s' = { s with pcs := Function.update s.pcs w PC.readQ } := by
  cases hstep
  case sleepStep h h' => exact h'
  all_goals simp_all

/-- At the `SCARD` re-check a worker breaks back to the outer loop when the
queue is non-empty, and otherwise moves to the `GET` re-read. -/
theorem step_of_readQ (hstep : WStep g w s s') (hp : s.pcs w = PC.readQ) :
    (s.frontier ≠ ∅ ∧ s' = { s with pcs := Function.update s.pcs w PC.idle }) ∨
    (s.frontier = ∅ ∧ s' = { s with pcs := Function.update s.pcs w PC.readA }) := by
  cases hstep
  case readQBreak h hq h' => exact Or.inl ⟨hq, h'⟩
  case readQEmpty h hq h' => exact Or.inr ⟨hq, h'⟩
  all_goals simp_all

/-- At the `GET` a worker re-reads the counter and loops the quiescence
check with the value read. -/
theorem step_of_readA (hstep : WStep g w s s') (hp : s.pcs w = PC.readA) :
    s' = { s with pcs := Function.update s.pcs w (PC.spin s.active) } := by
  cases hstep
  case readAStep h h' => exact h'
  all_goals simp_all

/-- A terminated worker does nothing. -/
theorem step_of_done (hstep : WStep g w s s') (hp : s.pcs w = PC.done) :
    s' = s := by
  cases hstep
  case doneStutter h h' => exact h'
  all_goals simp_all

end StepLemmas

/-! ### Claims about the worker lifecycle -/

/-- C2: a worker transitions to its terminal state exactly when, after its
claim loop exits with the queue observed empty, the value obtained from its
`DECR` (or from a subsequent `GET` re-read taken while the queue was
observed empty) equals zero: termination happens only from `spin 0` and
always from `spin 0`; the value held at `spin` comes only from the `DECR`
or the `GET`; the `DECR` is reached only from a claim loop that observed
the queue empty, and the `GET` only from a `SCARD` that observed it still
empty; and a terminated worker never resumes, whichever worker steps. -/
theorem c2_quiescence_transition :
    ∀ {V : Type} [DecidableEq V] (g : CGraph V) {N : ℕ} (w w' : Fin N)
      (s s' : Config V N),
      (WStep g w s s' → s.pcs w ≠ PC.done → s'.pcs w = PC.done →
        s.pcs w = PC.spin 0) ∧
      (WStep g w s s' → s.pcs w = PC.spin 0 → s'.pcs w = PC.done) ∧
      (∀ a : Int, WStep g w s s' → s'.pcs w = PC.spin a →
        (s.pcs w = PC.decr ∧ a = s.active - 1) ∨
        (s.pcs w = PC.readA ∧ a = s.active)) ∧
      (WStep g w s s' → s'.pcs w = PC.decr →
        s.pcs w = PC.claim ∧ s.frontier = ∅) ∧
      (WStep g w s s' → s'.pcs w = PC.readA →
        s.pcs w = PC.readQ ∧ s.frontier = ∅) ∧
      (WStep g w' s s' → s.pcs w = PC.done → s'.pcs w = PC.done) := by
  intro V _ g N w w' s s'
  refine ⟨?_, ?_, ?_, ?_, ?_, ?_⟩
  · intro hstep hnd hdone
    cases hstep <;> subst_vars <;> simp_all
  · intro hstep hp
    cases hstep <;> subst_vars <;> simp_all
  · intro a hstep hsp
    cases hstep
    case decrStep h h' =>
      subst h'
      have hsp2 : Function.update s.pcs w (PC.spin (s.active - 1)) w = PC.spin a := hsp
      rw [Function.update_same] at hsp2
      injection hsp2 with ha
      exact Or.inl ⟨h, ha.symm⟩
    case readAStep h h' =>
      subst h'
      have hsp2 : Function.update s.pcs w (PC.spin s.active) w = PC.spin a := hsp
      rw [Function.update_same] at hsp2
      injection hsp2 with ha
      exact Or.inr ⟨h, ha.symm⟩
    all_goals subst_vars <;> simp_all
  · intro hstep hdecr
    cases hstep
    case claimEmpty h he h' =>
      subst h'
      exact ⟨h, he⟩
    all_goals subst_vars <;> simp_all
  · intro hstep hra
    cases hstep
    case readQEmpty h hq h' =>
      subst h'
      exact ⟨h, hq⟩
    all_goals subst_vars <;> simp_all
  · intro hstep hdone
    cases hstep <;> subst_vars <;> by_cases hww : w = w' <;>
      simp_all [Function.update_apply]

/-- C2 witness: the concrete run's worker, whose `DECR` observed zero with
the queue empty, terminates. -/
theorem c2_witness : (demoStates 7).pcs (demoSched 6) = PC.done :=
  (c2_quiescence_transition demoGraph 0 0 (demoStates 6) (demoStates 7)).2.1
    (demoExec.step 6) rfl

/-- C9: in the sleeping state a worker waits the polling interval and then
re-checks the queue size; if it is non-zero the worker moves back to the
top of the outer loop, where it re-increments the active counter and
resumes claiming; if it is still zero the worker re-reads the active
counter and repeats the quiescence check with the value read. -/
theorem c9_sleeping_poll :
    ∀ {V : Type} [DecidableEq V] (g : CGraph V) {N : ℕ} (w : Fin N)
      (s s' : Config V N),
      (WStep g w s s' → s.pcs w = PC.sleeping →
        s' = { s with pcs := Function.update s.pcs w PC.readQ }) ∧
      (WStep g w s s' → s.pcs w = PC.readQ → s.frontier ≠ ∅ →
        s' = { s with pcs := Function.update s.pcs w PC.idle }) ∧
      (WStep g w s s' → s.pcs w = PC.idle →
        s' = { s with active := s.active + 1,
                      pcs := Function.update s.pcs w PC.claim }) ∧
      (WStep g w s s' → s.pcs w = PC.readQ → s.frontier = ∅ →
        s' = { s with pcs := Function.update s.pcs w PC.readA }) ∧
      (WStep g w s s' → s.pcs w = PC.readA →
        s' = { s with pcs := Function.update s.pcs w (PC.spin s.active) }) := by
  intro V _ g N w s s'
  refine ⟨fun hstep hp => step_of_sleeping hstep hp, ?_,
    fun hstep hp => step_of_idle hstep hp, ?_,
    fun hstep hp => step_of_readA hstep hp⟩
  · intro hstep hp hne
    rcases step_of_readQ hstep hp with ⟨_, h⟩ | ⟨he, _⟩
    · exact h
    · exact absurd he hne
  · intro hstep hp he
    rcases step_of_readQ hstep hp with ⟨hne, _⟩ | ⟨_, h⟩
    · exact absurd he hne
    · exact h

/-- C9 witness: a concrete two-worker instance of each polling branch. -/
theorem c9_witness :
    cfgSleepB = { cfgSleepA with pcs := Function.update cfgSleepA.pcs 0 PC.readQ } ∧
    cfgSleepC = { cfgSleepB with pcs := Function.update cfgSleepB.pcs 0 PC.idle } ∧
    cfgSleepD = { cfgSleepC with active := cfgSleepC.active + 1,
                                 pcs := Function.update cfgSleepC.pcs 0 PC.claim } ∧
    cfgPollB = { cfgPollA with pcs := Function.update cfgPollA.pcs 0 PC.readA } ∧
    cfgPollC = { cfgPollB with
                 pcs := Function.update cfgPollB.pcs 0 (PC.spin cfgPollB.active) } :=
  ⟨(c9_sleeping_poll demoGraph 0 cfgSleepA cfgSleepB).1
      (WStep.sleepStep _ _ rfl rfl) rfl,
   (c9_sleeping_poll demoGraph 0 cfgSleepB cfgSleepC).2.1
      (WStep.readQBreak _ _ rfl (by decide) rfl) rfl (by decide),
   (c9_sleeping_poll demoGraph 0 cfgSleepC cfgSleepD).2.2.1
      (WStep.incr _ _ rfl rfl) rfl,
   (c9_sleeping_poll demoGraph 0 cfgPollA cfgPollB).2.2.2.1
      (WStep.readQEmpty _ _ rfl rfl rfl) rfl rfl,
   (c9_sleeping_poll demoGraph 0 cfgPollB cfgPollC).2.2.2.2
      (WStep.readAStep _ _ rfl rfl) rfl⟩

/-! ### Execution-level lemmas: the visited set -/

section ExecLemmas

variable {V : Type} [DecidableEq V] {g : CGraph V} {N : ℕ} (E : Exec g N)

/-- One step never removes a URL from the visited set. -/
theorem visited_subset_step {w : Fin N} {s s' : Config V N}
    (hstep : WStep g w s s') : s.visited ⊆ s'.visited := by
  cases hstep <;> subst_vars <;>
    first
      | exact Finset.Subset.refl _
      | exact Finset.subset_insert _ _

/-- The visited set grows monotonically along the run. -/
theorem visited_mono : ∀ {i j : ℕ}, i ≤ j →
    (E.states i).visited ⊆ (E.states j).visited := by
  intro i j hij
  induction j, hij using Nat.le_induction with
  | base => exact Finset.Subset.refl _
  | succ j hij ih => exact ih.trans (visited_subset_step (E.step j))

/-- Across one instant the visited set is unchanged, or the scheduled
worker's `SADD` of a fresh URL inserts exactly that URL. -/
theorem visited_succ (n : ℕ) :
    (E.states (n + 1)).visited = (E.states n).visited ∨
    ∃ u', markEventAt E n u' ∧ u' ∉ (E.states n).visited ∧
      (E.states (n + 1)).visited = insert u' (E.states n).visited := by
  have hstep := E.step n
  cases hstep
  case markNew u' h hv h' => exact Or.inr ⟨u', h, hv, by rw [h']⟩
  all_goals (rename_i h'; exact Or.inl (by rw [h']))

/-- A URL is visited exactly when some earlier instant executed its `SADD`
dedup insert. -/
theorem visited_iff_marked (u : V) :
    ∀ n, u ∈ (E.states n).visited ↔ ∃ j, j < n ∧ markEventAt E j u := by
  intro n
  induction n with
  | zero =>
    rw [E.init_eq]
    constructor
    · intro hu
      simp [initConfig] at hu
    · rintro ⟨j, hj, _⟩
      omega
  | succ n ih =>
    constructor
    · intro hu
      rcases visited_succ E n with he | ⟨u', hm, _, he⟩
      · rw [he] at hu
        obtain ⟨j, hj, hmj⟩ := ih.mp hu
        exact ⟨j, by omega, hmj⟩
      · rw [he] at hu
        rcases Finset.mem_insert.mp hu with rfl | hu
        · exact ⟨n, by omega, hm⟩
        · obtain ⟨j, hj, hmj⟩ := ih.mp hu
          exact ⟨j, by omega, hmj⟩
    · rintro ⟨j, hj, hmj⟩
      rcases Nat.lt_succ_iff_lt_or_eq.mp hj with hj | rfl
      · exact visited_subset_step (E.step n) (ih.mpr ⟨j, hj, hmj⟩)
      · rcases step_of_mark (E.step j) hmj with ⟨hv, _⟩ | ⟨_, he⟩
        · exact visited_subset_step (E.step j) hv
        · rw [he]
          exact Finset.mem_insert_self _ _

/-- Entering the extraction of `u` at instant `i` means `u` was fresh there
and became visited. -/
theorem scrape_entry (i : ℕ) (u : V) (h : scrapeEventAt E i u) :
    u ∉ (E.states i).visited ∧
    (E.states (i + 1)).visited = insert u (E.states i).visited := by
  unfold scrapeEventAt at h
  have hstep := E.step i
  cases hstep
  case markNew u' hm hv h' =>
    rw [h'] at h
    simp only [Function.update_same, PC.scrape.injEq] at h
    subst h
    exact ⟨hv, by rw [h']⟩
  all_goals (rename_i h'; rw [h'] at h; simp_all)

end ExecLemmas

/-- C8: for every URL `u` and every interleaving across any number of
workers, the visited set only grows (no URL is ever removed); a
`MarkVisited(u)` call observes `inserted = true` exactly when it is the
first such call, so exactly one of them does; a URL already visited is
never extracted; and no URL's extraction is ever entered twice. -/
theorem c8_dedup_invariant :
    ∀ {V : Type} [DecidableEq V] {g : CGraph V} {N : ℕ} (E : Exec g N) (u : V),
      (∀ i j, i ≤ j → (E.states i).visited ⊆ (E.states j).visited) ∧
      (∀ i, markEventAt E i u →
        (u ∉ (E.states i).visited ↔ ∀ j, j < i → ¬ markEventAt E j u)) ∧
      (∀ i, scrapeEventAt E i u → u ∉ (E.states i).visited) ∧
      (∀ i j, i < j → scrapeEventAt E i u → scrapeEventAt E j u → False) := by
  intro V _ g N E u
  refine ⟨fun i j hij => visited_mono E hij, ?_, ?_, ?_⟩
  · intro i _
    rw [visited_iff_marked E u i]
    push_neg
    constructor
    · intro h j hj
      exact h j hj
    · intro h j hj
      exact h j hj
  · intro i hs
    exact (scrape_entry E i u hs).1
  · intro i j hij hsi hsj
    have h1 := scrape_entry E i u hsi
    have h2 := scrape_entry E j u hsj
    have hmem : u ∈ (E.states (i + 1)).visited := by
      rw [h1.2]
      exact Finset.mem_insert_self _ _
    exact h2.1 (visited_mono E (by omega : i + 1 ≤ j) hmem)

/-- C8 witness: in the concrete run, the seed's `SADD` at instant 2 is the
first, so it observes `inserted = true`. -/
theorem c8_witness :
    (0 : Fin 1) ∉ (demoExec.states 2).visited ↔
      ∀ j, j < 2 → ¬ markEventAt demoExec j (0 : Fin 1) :=
  (c8_dedup_invariant demoExec 0).2.1 2 rfl

/-! ### Invariant preservation for the protocol -/

section InvLemmas

variable {V : Type} [DecidableEq V] {g : CGraph V} {N : ℕ} {w w' : Fin N}
variable {s s' : Config V N}

/-- Rewriting a sum of worker potentials across a pointwise update. -/
theorem sum_comp_update {α : Type} (f : Fin N → α) (w : Fin N) (x : α)
    (c : α → ℕ) :
    (∑ w', c (Function.update f w x w')) + c (f w) =
      (∑ w', c (f w')) + c x := by
  have h1 := Finset.sum_eq_sum_diff_singleton_add (Finset.mem_univ w)
    fun w' => c (Function.update f w x w')
  have h2 := Finset.sum_eq_sum_diff_singleton_add (Finset.mem_univ w)
    fun w' => c (f w')
  have h3 : (∑ w' ∈ Finset.univ \ {w}, c (Function.update f w x w')) =
      ∑ w' ∈ Finset.univ \ {w}, c (f w') := by
    refine Finset.sum_congr rfl ?_
    intro w' hw'
    rw [Function.update_noteq (Finset.not_mem_singleton.mp (Finset.mem_sdiff.mp hw').2)]
  rw [h1, h2, h3, Function.update_same]
  ring

/-- Characterize an updated program counter. -/
theorem update_eq_iff (f : Fin N → PC V) (p q : PC V) :
    Function.update f w p w' = q ↔
      (w' = w ∧ p = q) ∨ (w' ≠ w ∧ f w' = q) := by
  rcases eq_or_ne w' w with h | h
  · subst h
    simp [Function.update_same]
  · simp [Function.update_noteq h, h]

/-- Every URL reachable from the seed is one of the graph's pages. -/
theorem reach_pages {u : V} (h : Reach g u) : u ∈ g.pages := by
  induction h with
  | seed => exact g.seed_mem
  | step hr hout ih => exact g.closed _ ih hout

/-- The out-links of a reachable page are reachable. -/
theorem reach_out {u x : V} (h : Reach g u) (hx : x ∈ g.out u) : Reach g x :=
  Reach.step h hx

end InvLemmas

section InvStep

variable {V : Type} [DecidableEq V] {g : CGraph V} {N : ℕ} {w : Fin N}
variable {s s' : Config V N}

/-- Pending URLs are unchanged by a program-counter move that neither
leaves nor enters the `SADD`/scrape commands. -/
theorem pending_fun_iff (f : Fin N → PC V) (w : Fin N) (p1 : PC V)
    (hm0 : ∀ u, f w ≠ PC.mark u) (hs0 : ∀ u, f w ≠ PC.scrape u)
    (hm1 : ∀ u, p1 ≠ PC.mark u) (hs1 : ∀ u, p1 ≠ PC.scrape u) (x : V) :
    (∃ w2, Function.update f w p1 w2 = PC.mark x ∨
      ∃ v, Function.update f w p1 w2 = PC.scrape v ∧ x ∈ g.out v) ↔
    (∃ w2, f w2 = PC.mark x ∨ ∃ v, f w2 = PC.scrape v ∧ x ∈ g.out v) := by
  constructor
  · rintro ⟨w2, h | ⟨v, hv, hx⟩⟩
    · rcases eq_or_ne w2 w with rfl | hne
      · rw [Function.update_same] at h
        exact absurd h (hm1 x)
      · rw [Function.update_noteq hne] at h
        exact ⟨w2, Or.inl h⟩
    · rcases eq_or_ne w2 w with rfl | hne
      · rw [Function.update_same] at hv
        exact absurd hv (hs1 v)
      · rw [Function.update_noteq hne] at hv
        exact ⟨w2, Or.inr ⟨v, hv, hx⟩⟩
  · rintro ⟨w2, h | ⟨v, hv, hx⟩⟩
    · have hne : w2 ≠ w := fun he => (hm0 x) (he ▸ h)
      refine ⟨w2, Or.inl ?_⟩
      rw [Function.update_noteq hne]
      exact h
    · have hne : w2 ≠ w := fun he => (hs0 v) (he ▸ hv)
      refine ⟨w2, Or.inr ⟨v, ?_, hx⟩⟩
      rw [Function.update_noteq hne]
      exact hv

/-- Invariant preservation for every step that only moves a program counter
(and possibly steps the counter by the matching amount) without touching
the queue, the visited set, or the `SADD`/scrape commands. -/
theorem inv_step_pcs (hinv : CrawlInv g s) {p1 : PC V} {a' : Int}
    (hm0 : ∀ u, s.pcs w ≠ PC.mark u) (hs0 : ∀ u, s.pcs w ≠ PC.scrape u)
    (hm1 : ∀ u, p1 ≠ PC.mark u) (hs1 : ∀ u, p1 ≠ PC.scrape u)
    (hbusy : isBusyPC p1 = true ∨ isBusyPC (s.pcs w) = false ∨ s.frontier = ∅)
    (ha : a' = s.active + (if isActivePC p1 then (1 : Int) else 0) -
      (if isActivePC (s.pcs w) then (1 : Int) else 0))
    (h' : s' = { s with active := a', pcs := Function.update s.pcs w p1 }) :
    CrawlInv g s' := by
  subst h'
  obtain ⟨hactive, hbus, hclo, hseed, hvr, hfr, hmr, hsr⟩ := hinv
  refine ⟨?_, ?_, ?_, ?_, hvr, hfr, ?_, ?_⟩
  · have he : actCount { s with active := a',
                                pcs := Function.update s.pcs w p1 } +
        (if isActivePC (s.pcs w) then 1 else 0) =
        actCount s + (if isActivePC p1 then 1 else 0) :=
      sum_comp_update s.pcs w p1 fun pc => if isActivePC pc then 1 else 0
    show a' = _
    cases hb0 : isActivePC (s.pcs w) <;> cases hb1 : isActivePC p1 <;>
      simp [hb0, hb1] at he ha ⊢ <;> omega
  · intro hne
    rcases hbusy with hb | hb | hb
    · refine ⟨w, ?_⟩
      show isBusyPC (Function.update s.pcs w p1 w) = true
      rw [Function.update_same]
      exact hb
    · obtain ⟨w2, hw2⟩ := hbus hne
      have hne2 : w2 ≠ w := by
        intro he
        rw [he, hb] at hw2
        exact Bool.false_ne_true hw2
      refine ⟨w2, ?_⟩
      show isBusyPC (Function.update s.pcs w p1 w2) = true
      rw [Function.update_noteq hne2]
      exact hw2
    · exact absurd hb hne
  · intro u hu x hx
    rcases hclo u hu x hx with h | h | h
    · exact Or.inl h
    · exact Or.inr (Or.inl h)
    · exact Or.inr (Or.inr
        ((pending_fun_iff s.pcs w p1 hm0 hs0 hm1 hs1 x).mpr h))
  · rcases hseed with h | h | ⟨w2, hw2⟩
    · exact Or.inl h
    · exact Or.inr (Or.inl h)
    · have hne2 : w2 ≠ w := fun he => (hm0 g.seed) (he ▸ hw2)
      refine Or.inr (Or.inr ⟨w2, ?_⟩)
      show Function.update s.pcs w p1 w2 = PC.mark g.seed
      rw [Function.update_noteq hne2]
      exact hw2
  · intro w2 u hw2
    have h2 : Function.update s.pcs w p1 w2 = PC.mark u := hw2
    rcases (update_eq_iff s.pcs p1 (PC.mark u)).mp h2 with ⟨_, he⟩ | ⟨_, he⟩
    · exact absurd he (hm1 u)
    · exact hmr w2 u he
  · intro w2 u hw2
    have h2 : Function.update s.pcs w p1 w2 = PC.scrape u := hw2
    rcases (update_eq_iff s.pcs p1 (PC.scrape u)).mp h2 with ⟨_, he⟩ | ⟨_, he⟩
    · exact absurd he (hs1 u)
    · exact hsr w2 u he

end InvStep

section InvStepSpecial

variable {V : Type} [DecidableEq V] {g : CGraph V} {N : ℕ} {w : Fin N}
variable {s s' : Config V N}

/-- The active count is unchanged by a counter-neutral program-counter
move. -/
theorem sum_act_update_eq (f : Fin N → PC V) (w : Fin N) (p1 : PC V)
    (h : isActivePC (f w) = isActivePC p1) :
    (∑ w', if isActivePC (Function.update f w p1 w') then 1 else 0) =
    (∑ w', if isActivePC (f w') then 1 else 0) := by
  have he := sum_comp_update f w p1 fun pc => if isActivePC pc then 1 else 0
  rw [h] at he
  omega

/-- Invariant preservation for a successful `SPOP` claim. -/
theorem inv_step_claimPop (hinv : CrawlInv g s) {u : V}
    (h : s.pcs w = PC.claim) (hu : u ∈ s.frontier)
    (h' : s' = { s with frontier := s.frontier.erase u,
                        pcs := Function.update s.pcs w (PC.mark u) }) :
    CrawlInv g s' := by
  subst h'
  obtain ⟨hactive, hbus, hclo, hseed, hvr, hfr, hmr, hsr⟩ := hinv
  refine ⟨?_, ?_, ?_, ?_, hvr, ?_, ?_, ?_⟩
  · have hc : actCount { s with frontier := s.frontier.erase u,
                                 pcs := Function.update s.pcs w (PC.mark u) } =
        actCount s :=
      sum_act_update_eq s.pcs w (PC.mark u) (by rw [h]; rfl)
    show s.active = _
    rw [hc]
    exact hactive
  · intro _
    refine ⟨w, ?_⟩
    show isBusyPC (Function.update s.pcs w (PC.mark u) w) = true
    rw [Function.update_same]
    rfl
  · intro u2 hu2 x hx
    rcases hclo u2 hu2 x hx with hh | hh | ⟨w2, hcase⟩
    · exact Or.inl hh
    · rcases eq_or_ne x u with rfl | hne
      · refine Or.inr (Or.inr ⟨w, Or.inl ?_⟩)
        show Function.update s.pcs w (PC.mark x) w = PC.mark x
        rw [Function.update_same]
      · exact Or.inr (Or.inl (Finset.mem_erase_of_ne_of_mem hne hh))
    · have hne2 : w2 ≠ w := by
        intro he
        subst he
        rcases hcase with hm | ⟨v, hs2, _⟩
        · rw [h] at hm
          exact PC.noConfusion hm
        · rw [h] at hs2
          exact PC.noConfusion hs2
      rcases hcase with hm | ⟨v, hs2, hx2⟩
      · refine Or.inr (Or.inr ⟨w2, Or.inl ?_⟩)
        show Function.update s.pcs w (PC.mark u) w2 = PC.mark x
        rw [Function.update_noteq hne2]
        exact hm
      · refine Or.inr (Or.inr ⟨w2, Or.inr ⟨v, ?_, hx2⟩⟩)
        show Function.update s.pcs w (PC.mark u) w2 = PC.scrape v
        rw [Function.update_noteq hne2]
        exact hs2
  · rcases hseed with hh | hh | ⟨w2, hw2⟩
    · exact Or.inl hh
    · rcases eq_or_ne g.seed u with rfl | hne
      · refine Or.inr (Or.inr ⟨w, ?_⟩)
        show Function.update s.pcs w (PC.mark g.seed) w = PC.mark g.seed
        rw [Function.update_same]
      · exact Or.inr (Or.inl (Finset.mem_erase_of_ne_of_mem hne hh))
    · have hne2 : w2 ≠ w := by
        intro he
        rw [he, h] at hw2
        exact PC.noConfusion hw2
      refine Or.inr (Or.inr ⟨w2, ?_⟩)
      show Function.update s.pcs w (PC.mark u) w2 = PC.mark g.seed
      rw [Function.update_noteq hne2]
      exact hw2
  · intro x hx
    exact hfr x (Finset.mem_of_mem_erase hx)
  · intro w2 u2 hw2
    have h2 : Function.update s.pcs w (PC.mark u) w2 = PC.mark u2 := hw2
    rcases (update_eq_iff s.pcs _ _).mp h2 with ⟨_, he⟩ | ⟨_, he⟩
    · injection he with he2
      subst he2
      exact hfr u hu
    · exact hmr w2 u2 he
  · intro w2 u2 hw2
    have h2 : Function.update s.pcs w (PC.mark u) w2 = PC.scrape u2 := hw2
    rcases (update_eq_iff s.pcs _ _).mp h2 with ⟨_, he⟩ | ⟨_, he⟩
    · exact PC.noConfusion he
    · exact hsr w2 u2 he

/-- Invariant preservation for a duplicate-claim skip. -/
theorem inv_step_markSkip (hinv : CrawlInv g s) {u : V}
    (h : s.pcs w = PC.mark u) (hv : u ∈ s.visited)
    (h' : s' = { s with pcs := Function.update s.pcs w PC.claim }) :
    CrawlInv g s' := by
  subst h'
  obtain ⟨hactive, hbus, hclo, hseed, hvr, hfr, hmr, hsr⟩ := hinv
  refine ⟨?_, ?_, ?_, ?_, hvr, hfr, ?_, ?_⟩
  · have hc : actCount { s with pcs := Function.update s.pcs w PC.claim } =
        actCount s := sum_act_update_eq s.pcs w PC.claim (by rw [h]; rfl)
    show s.active = _
    rw [hc]
    exact hactive
  · intro _
    refine ⟨w, ?_⟩
    show isBusyPC (Function.update s.pcs w PC.claim w) = true
    rw [Function.update_same]
    rfl
  · intro u2 hu2 x hx
    rcases hclo u2 hu2 x hx with hh | hh | ⟨w2, hcase⟩
    · exact Or.inl hh
    · exact Or.inr (Or.inl hh)
    · rcases eq_or_ne w2 w with rfl | hne2
      · rcases hcase with hm | ⟨v, hs2, _⟩
        · rw [h] at hm
          injection hm with he2
          subst he2
          exact Or.inl hv
        · rw [h] at hs2
          exact PC.noConfusion hs2
      · rcases hcase with hm | ⟨v, hs2, hx2⟩
        · refine Or.inr (Or.inr ⟨w2, Or.inl ?_⟩)
          show Function.update s.pcs w PC.claim w2 = PC.mark x
          rw [Function.update_noteq hne2]
          exact hm
        · refine Or.inr (Or.inr ⟨w2, Or.inr ⟨v, ?_, hx2⟩⟩)
          show Function.update s.pcs w PC.claim w2 = PC.scrape v
          rw [Function.update_noteq hne2]
          exact hs2
  · rcases hseed with hh | hh | ⟨w2, hw2⟩
    · exact Or.inl hh
    · exact Or.inr (Or.inl hh)
    · rcases eq_or_ne w2 w with rfl | hne2
      · rw [h] at hw2
        injection hw2 with he2
        rw [← he2]
        exact Or.inl hv
      · refine Or.inr (Or.inr ⟨w2, ?_⟩)
        show Function.update s.pcs w PC.claim w2 = PC.mark g.seed
        rw [Function.update_noteq hne2]
        exact hw2
  · intro w2 u2 hw2
    have h2 : Function.update s.pcs w PC.claim w2 = PC.mark u2 := hw2
    rcases (update_eq_iff s.pcs _ _).mp h2 with ⟨_, he⟩ | ⟨_, he⟩
    · exact PC.noConfusion he
    · exact hmr w2 u2 he
  · intro w2 u2 hw2
    have h2 : Function.update s.pcs w PC.claim w2 = PC.scrape u2 := hw2
    rcases (update_eq_iff s.pcs _ _).mp h2 with ⟨_, he⟩ | ⟨_, he⟩
    · exact PC.noConfusion he
    · exact hsr w2 u2 he

/-- Invariant preservation for a fresh visit (`inserted = 1`). -/
theorem inv_step_markNew (hinv : CrawlInv g s) {u : V}
    (h : s.pcs w = PC.mark u) (hv : u ∉ s.visited)
    (h' : s' = { s with visited := insert u s.visited,
                        pcs := Function.update s.pcs w (PC.scrape u) }) :
    CrawlInv g s' := by
  subst h'
  obtain ⟨hactive, hbus, hclo, hseed, hvr, hfr, hmr, hsr⟩ := hinv
  refine ⟨?_, ?_, ?_, ?_, ?_, hfr, ?_, ?_⟩
  · have hc : actCount { s with visited := insert u s.visited,
                                pcs := Function.update s.pcs w (PC.scrape u) } =
        actCount s :=
      sum_act_update_eq s.pcs w (PC.scrape u) (by rw [h]; rfl)
    show s.active = _
    rw [hc]
    exact hactive
  · intro _
    refine ⟨w, ?_⟩
    show isBusyPC (Function.update s.pcs w (PC.scrape u) w) = true
    rw [Function.update_same]
    rfl
  · intro u2 hu2 x hx
    rcases Finset.mem_insert.mp hu2 with rfl | hu2
    · refine Or.inr (Or.inr ⟨w, Or.inr ⟨u2, ?_, hx⟩⟩)
      show Function.update s.pcs w (PC.scrape u2) w = PC.scrape u2
      rw [Function.update_same]
    · rcases hclo u2 hu2 x hx with hh | hh | ⟨w2, hcase⟩
      · exact Or.inl (Finset.mem_insert_of_mem hh)
      · exact Or.inr (Or.inl hh)
      · rcases eq_or_ne w2 w with rfl | hne2
        · rcases hcase with hm | ⟨v, hs2, _⟩
          · rw [h] at hm
            injection hm with he2
            subst he2
            exact Or.inl (Finset.mem_insert_self _ _)
          · rw [h] at hs2
            exact PC.noConfusion hs2
        · rcases hcase with hm | ⟨v, hs2, hx2⟩
          · refine Or.inr (Or.inr ⟨w2, Or.inl ?_⟩)
            show Function.update s.pcs w (PC.scrape u) w2 = PC.mark x
            rw [Function.update_noteq hne2]
            exact hm
          · refine Or.inr (Or.inr ⟨w2, Or.inr ⟨v, ?_, hx2⟩⟩)
            show Function.update s.pcs w (PC.scrape u) w2 = PC.scrape v
            rw [Function.update_noteq hne2]
            exact hs2
  · rcases hseed with hh | hh | ⟨w2, hw2⟩
    · exact Or.inl (Finset.mem_insert_of_mem hh)
    · exact Or.inr (Or.inl hh)
    · rcases eq_or_ne w2 w with rfl | hne2
      · rw [h] at hw2
        injection hw2 with he2
        rw [← he2]
        exact Or.inl (Finset.mem_insert_self _ _)
      · refine Or.inr (Or.inr ⟨w2, ?_⟩)
        show Function.update s.pcs w (PC.scrape u) w2 = PC.mark g.seed
        rw [Function.update_noteq hne2]
        exact hw2
  · intro u2 hu2
    rcases Finset.mem_insert.mp hu2 with rfl | hu2
    · exact hmr w u2 h
    · exact hvr u2 hu2
  · intro w2 u2 hw2
    have h2 : Function.update s.pcs w (PC.scrape u) w2 = PC.mark u2 := hw2
    rcases (update_eq_iff s.pcs _ _).mp h2 with ⟨_, he⟩ | ⟨_, he⟩
    · exact PC.noConfusion he
    · exact hmr w2 u2 he
  · intro w2 u2 hw2
    have h2 : Function.update s.pcs w (PC.scrape u) w2 = PC.scrape u2 := hw2
    rcases (update_eq_iff s.pcs _ _).mp h2 with ⟨_, he⟩ | ⟨_, he⟩
    · injection he with he2
      subst he2
      exact hmr w u h
    · exact hsr w2 u2 he

/-- Invariant preservation for the scrape-and-push of a fresh page. -/
theorem inv_step_scrape (hinv : CrawlInv g s) {u : V}
    (h : s.pcs w = PC.scrape u)
    (h' : s' = { s with frontier := s.frontier ∪ g.out u,
                        images := s.images ∪ g.imgs u,
                        pcs := Function.update s.pcs w PC.claim }) :
    CrawlInv g s' := by
  subst h'
  obtain ⟨hactive, hbus, hclo, hseed, hvr, hfr, hmr, hsr⟩ := hinv
  refine ⟨?_, ?_, ?_, ?_, hvr, ?_, ?_, ?_⟩
  · have hc : actCount { s with frontier := s.frontier ∪ g.out u,
                                images := s.images ∪ g.imgs u,
                                pcs := Function.update s.pcs w PC.claim } =
        actCount s :=
      sum_act_update_eq s.pcs w PC.claim (by rw [h]; rfl)
    show s.active = _
    rw [hc]
    exact hactive
  · intro _
    refine ⟨w, ?_⟩
    show isBusyPC (Function.update s.pcs w PC.claim w) = true
    rw [Function.update_same]
    rfl
  · intro u2 hu2 x hx
    rcases hclo u2 hu2 x hx with hh | hh | ⟨w2, hcase⟩
    · exact Or.inl hh
    · exact Or.inr (Or.inl (Finset.mem_union_left _ hh))
    · rcases eq_or_ne w2 w with rfl | hne2
      · rcases hcase with hm | ⟨v, hs2, hx2⟩
        · rw [h] at hm
          exact PC.noConfusion hm
        · rw [h] at hs2
          injection hs2 with he2
          subst he2
          exact Or.inr (Or.inl (Finset.mem_union_right _ hx2))
      · rcases hcase with hm | ⟨v, hs2, hx2⟩
        · refine Or.inr (Or.inr ⟨w2, Or.inl ?_⟩)
          show Function.update s.pcs w PC.claim w2 = PC.mark x
          rw [Function.update_noteq hne2]
          exact hm
        · refine Or.inr (Or.inr ⟨w2, Or.inr ⟨v, ?_, hx2⟩⟩)
          show Function.update s.pcs w PC.claim w2 = PC.scrape v
          rw [Function.update_noteq hne2]
          exact hs2
  · rcases hseed with hh | hh | ⟨w2, hw2⟩
    · exact Or.inl hh
    · exact Or.inr (Or.inl (Finset.mem_union_left _ hh))
    · have hne2 : w2 ≠ w := by
        intro he
        rw [he, h] at hw2
        exact PC.noConfusion hw2
      refine Or.inr (Or.inr ⟨w2, ?_⟩)
      show Function.update s.pcs w PC.claim w2 = PC.mark g.seed
      rw [Function.update_noteq hne2]
      exact hw2
  · intro x hx
    rcases Finset.mem_union.mp hx with hh | hh
    · exact hfr x hh
    · exact reach_out (hsr w u h) hh
  · intro w2 u2 hw2
    have h2 : Function.update s.pcs w PC.claim w2 = PC.mark u2 := hw2
    rcases (update_eq_iff s.pcs _ _).mp h2 with ⟨_, he⟩ | ⟨_, he⟩
    · exact PC.noConfusion he
    · exact hmr w2 u2 he
  · intro w2 u2 hw2
    have h2 : Function.update s.pcs w PC.claim w2 = PC.scrape u2 := hw2
    rcases (update_eq_iff s.pcs _ _).mp h2 with ⟨_, he⟩ | ⟨_, he⟩
    · exact PC.noConfusion he
    · exact hsr w2 u2 he

end InvStepSpecial

section InvMain

variable {V : Type} [DecidableEq V] {g : CGraph V} {N : ℕ} {w : Fin N}
variable {s s' : Config V N}

/-- The protocol invariant is preserved by every step of every worker. -/
theorem inv_step (hstep : WStep g w s s') (hinv : CrawlInv g s) :
    CrawlInv g s' := by
  cases hstep
  case incr h h' =>
    refine inv_step_pcs hinv
      (fun u he => by rw [h] at he; exact PC.noConfusion he)
      (fun u he => by rw [h] at he; exact PC.noConfusion he)
      (fun u he => PC.noConfusion he) (fun u he => PC.noConfusion he)
      ?_ ?_ h'
    · exact Or.inl rfl
    · rw [h]
      simp [isActivePC]
  case claimPop u h hu h' => exact inv_step_claimPop hinv h hu h'
  case claimEmpty h he h' =>
    refine inv_step_pcs hinv
      (fun u he2 => by rw [h] at he2; exact PC.noConfusion he2)
      (fun u he2 => by rw [h] at he2; exact PC.noConfusion he2)
      (fun u he2 => PC.noConfusion he2) (fun u he2 => PC.noConfusion he2)
      (Or.inr (Or.inr he)) ?_ h'
    rw [h]
    simp [isActivePC]
  case markSkip u h hv h' => exact inv_step_markSkip hinv h hv h'
  case markNew u h hv h' => exact inv_step_markNew hinv h hv h'
  case scrapeStep u h h' => exact inv_step_scrape hinv h h'
  case decrStep h h' =>
    refine inv_step_pcs hinv
      (fun u he => by rw [h] at he; exact PC.noConfusion he)
      (fun u he => by rw [h] at he; exact PC.noConfusion he)
      (fun u he => PC.noConfusion he) (fun u he => PC.noConfusion he)
      (Or.inr (Or.inl (by rw [h]; rfl))) ?_ h'
    rw [h]
    simp [isActivePC]
  case spinDone h h' =>
    refine inv_step_pcs hinv
      (fun u he => by rw [h] at he; exact PC.noConfusion he)
      (fun u he => by rw [h] at he; exact PC.noConfusion he)
      (fun u he => PC.noConfusion he) (fun u he => PC.noConfusion he)
      (Or.inr (Or.inl (by rw [h]; rfl))) ?_ h'
    rw [h]
    simp [isActivePC]
  case spinSleep a h ha h' =>
    refine inv_step_pcs hinv
      (fun u he => by rw [h] at he; exact PC.noConfusion he)
      (fun u he => by rw [h] at he; exact PC.noConfusion he)
      (fun u he => PC.noConfusion he) (fun u he => PC.noConfusion he)
      (Or.inr (Or.inl (by rw [h]; rfl))) ?_ h'
    rw [h]
    simp [isActivePC]
  case sleepStep h h' =>
    refine inv_step_pcs hinv
      (fun u he => by rw [h] at he; exact PC.noConfusion he)
      (fun u he => by rw [h] at he; exact PC.noConfusion he)
      (fun u he => PC.noConfusion he) (fun u he => PC.noConfusion he)
      (Or.inr (Or.inl (by rw [h]; rfl))) ?_ h'
    rw [h]
    simp [isActivePC]
  case readQBreak h hq h' =>
    refine inv_step_pcs hinv
      (fun u he => by rw [h] at he; exact PC.noConfusion he)
      (fun u he => by rw [h] at he; exact PC.noConfusion he)
      (fun u he => PC.noConfusion he) (fun u he => PC.noConfusion he)
      ?_ ?_ h'
    · exact Or.inl rfl
    · rw [h]
      simp [isActivePC]
  case readQEmpty h hq h' =>
    refine inv_step_pcs hinv
      (fun u he => by rw [h] at he; exact PC.noConfusion he)
      (fun u he => by rw [h] at he; exact PC.noConfusion he)
      (fun u he => PC.noConfusion he) (fun u he => PC.noConfusion he)
      (Or.inr (Or.inl (by rw [h]; rfl))) ?_ h'
    rw [h]
    simp [isActivePC]
  case readAStep h h' =>
    refine inv_step_pcs hinv
      (fun u he => by rw [h] at he; exact PC.noConfusion he)
      (fun u he => by rw [h] at he; exact PC.noConfusion he)
      (fun u he => PC.noConfusion he) (fun u he => PC.noConfusion he)
      (Or.inr (Or.inl (by rw [h]; rfl))) ?_ h'
    rw [h]
    simp [isActivePC]
  case doneStutter h h' =>
    rw [h']
    exact hinv

/-- The initial configuration satisfies the invariant as soon as at least
one worker exists. -/
theorem inv_init (g : CGraph V) {N : ℕ} (hN : 1 ≤ N) :
    CrawlInv g (initConfig g N) := by
  refine ⟨?_, ?_, ?_, ?_, ?_, ?_, ?_, ?_⟩
  · show (0 : Int) = _
    unfold actCount initConfig
    simp [isActivePC]
  · intro _
    exact ⟨⟨0, hN⟩, rfl⟩
  · intro u hu
    simp [initConfig] at hu
  · exact Or.inr (Or.inl (Finset.mem_singleton_self _))
  · intro u hu
    simp [initConfig] at hu
  · intro u hu
    have he : u = g.seed := Finset.mem_singleton.mp hu
    rw [he]
    exact Reach.seed
  · intro w2 u hw
    exact PC.noConfusion hw
  · intro w2 u hw
    exact PC.noConfusion hw

/-- The invariant holds at every instant of a run. -/
theorem inv_all (E : Exec g N) (hN : 1 ≤ N) : ∀ i, CrawlInv g (E.states i) := by
  intro i
  induction i with
  | zero =>
    rw [E.init_eq]
    exact inv_init g hN
  | succ i ih => exact inv_step (E.step i) ih

end InvMain

/-! ### Safety: at global termination the visited set is the reachable set -/

section Safety

variable {V : Type} [DecidableEq V] {g : CGraph V} {N : ℕ}

/-- At global termination the crawl queue is empty. -/
theorem frontier_empty_of_allDone {s : Config V N} (hinv : CrawlInv g s)
    (hd : allDone s) : s.frontier = ∅ := by
  by_contra hne
  obtain ⟨w2, hw2⟩ := hinv.busy_of_frontier hne
  rw [hd w2] at hw2
  exact Bool.false_ne_true hw2

/-- At global termination the visited set is exactly the set of URLs
reachable from the seed. -/
theorem visited_eq_reach_of_allDone {s : Config V N} (hinv : CrawlInv g s)
    (hd : allDone s) : ∀ v, v ∈ s.visited ↔ Reach g v := by
  have hfe := frontier_empty_of_allDone hinv hd
  have hseedv : g.seed ∈ s.visited := by
    rcases hinv.seed_loc with h | h | ⟨w2, hw2⟩
    · exact h
    · rw [hfe] at h
      exact absurd h (Finset.not_mem_empty _)
    · rw [hd w2] at hw2
      exact PC.noConfusion hw2
  have hclosed : ∀ u ∈ s.visited, ∀ x ∈ g.out u, x ∈ s.visited := by
    intro u hu x hx
    rcases hinv.closure u hu x hx with h | h | ⟨w2, hcase⟩
    · exact h
    · rw [hfe] at h
      exact absurd h (Finset.not_mem_empty _)
    · rcases hcase with hm | ⟨v, hs2, _⟩
      · rw [hd w2] at hm
        exact PC.noConfusion hm
      · rw [hd w2] at hs2
        exact PC.noConfusion hs2
  intro v
  constructor
  · exact hinv.vis_reach v
  · intro hr
    induction hr with
    | seed => exact hseedv
    | step hr2 hout ih => exact hclosed _ ih _ hout

end Safety

/-! ### The termination measure -/

section PhiLemmas

variable {V : Type} [DecidableEq V] {g : CGraph V} {N : ℕ} {w : Fin N}
variable {s : Config V N}

/-- Measure bookkeeping across a program-counter (and counter) update. -/
theorem phi_record_pcs (s : Config V N) (w : Fin N) (p1 : PC V) (a' : Int) :
    phi g { s with active := a', pcs := Function.update s.pcs w p1 } +
      phiPC g (s.pcs w) + s.active.toNat =
    phi g s + phiPC g p1 + a'.toNat := by
  have h1 : phi g { s with active := a', pcs := Function.update s.pcs w p1 } =
      (g.pages.card + 2) * (g.pages \ s.visited).card + s.frontier.card +
        (∑ w', phiPC g (Function.update s.pcs w p1 w')) + a'.toNat := rfl
  have h2 : phi g s =
      (g.pages.card + 2) * (g.pages \ s.visited).card + s.frontier.card +
        (∑ w', phiPC g (s.pcs w')) + s.active.toNat := rfl
  have hsum := sum_comp_update s.pcs w p1 (phiPC g)
  rw [h1, h2]
  omega

/-- The counter is never negative. -/
theorem active_nonneg (hinv : CrawlInv g s) : 0 ≤ s.active := by
  rw [hinv.active_eq]
  exact Int.natCast_nonneg _

/-- A worker inside the claim cycle keeps the counter at least one. -/
theorem active_pos_of_activePC (hinv : CrawlInv g s)
    (h : isActivePC (s.pcs w) = true) : 1 ≤ s.active := by
  have hle : (if isActivePC (s.pcs w) then 1 else 0) ≤ actCount s :=
    Finset.single_le_sum (f := fun w' => if isActivePC (s.pcs w') then 1 else 0)
      (fun i _ => Nat.zero_le _) (Finset.mem_univ w)
  rw [h] at hle
  simp only [if_true] at hle
  rw [hinv.active_eq]
  exact_mod_cast hle

/-- The `INCR` step preserves the measure. -/
theorem phi_incr (hinv : CrawlInv g s) (h : s.pcs w = PC.idle) :
    phi g { s with active := s.active + 1,
                   pcs := Function.update s.pcs w PC.claim } = phi g s := by
  have hk := phi_record_pcs (g := g) s w PC.claim (s.active + 1)
  rw [h] at hk
  simp only [phiPC] at hk
  have h0 := active_nonneg hinv
  omega

/-- The empty-queue `SPOP` preserves the measure. -/
theorem phi_claimEmpty (h : s.pcs w = PC.claim) :
    phi g { s with pcs := Function.update s.pcs w PC.decr } = phi g s := by
  have hk := phi_record_pcs (g := g) s w PC.decr s.active
  rw [h] at hk
  simp only [phiPC] at hk
  omega

/-- The duplicate-skip `SADD` preserves the measure. -/
theorem phi_markSkip {u : V} (h : s.pcs w = PC.mark u) :
    phi g { s with pcs := Function.update s.pcs w PC.claim } = phi g s := by
  have hk := phi_record_pcs (g := g) s w PC.claim s.active
  rw [h] at hk
  simp only [phiPC] at hk
  omega

/-- The `DECR` step preserves the measure. -/
theorem phi_decr (hinv : CrawlInv g s) (h : s.pcs w = PC.decr) :
    phi g { s with active := s.active - 1,
                   pcs := Function.update s.pcs w (PC.spin (s.active - 1)) } =
      phi g s := by
  have hk := phi_record_pcs (g := g) s w (PC.spin (s.active - 1)) (s.active - 1)
  rw [h] at hk
  simp only [phiPC] at hk
  have h1 : 1 ≤ s.active := active_pos_of_activePC hinv (by rw [h]; rfl)
  omega

/-- The sleep, wake, `SCARD` and `GET` steps preserve the measure. -/
theorem phi_poll (p0 p1 : PC V) (h : s.pcs w = p0)
    (h0 : phiPC g p0 = 1) (h1 : phiPC g p1 = 1) :
    phi g { s with pcs := Function.update s.pcs w p1 } = phi g s := by
  have hk := phi_record_pcs (g := g) s w p1 s.active
  rw [h, h0, h1] at hk
  omega

/-- Termination strictly decreases the measure. -/
theorem phi_spinDone (h : s.pcs w = PC.spin 0) :
    phi g { s with pcs := Function.update s.pcs w PC.done } < phi g s := by
  have hk := phi_record_pcs (g := g) s w PC.done s.active
  rw [h] at hk
  simp only [phiPC] at hk
  omega

/-- A successful `SPOP` strictly decreases the measure. -/
theorem phi_pop {u : V} (h : s.pcs w = PC.claim) (hu : u ∈ s.frontier) :
    phi g { s with frontier := s.frontier.erase u,
                   pcs := Function.update s.pcs w (PC.mark u) } < phi g s := by
  have h1 : phi g { s with frontier := s.frontier.erase u,
                            pcs := Function.update s.pcs w (PC.mark u) } =
      (g.pages.card + 2) * (g.pages \ s.visited).card +
        (s.frontier.erase u).card +
        (∑ w', phiPC g (Function.update s.pcs w (PC.mark u) w')) +
        s.active.toNat := rfl
  have h2 : phi g s =
      (g.pages.card + 2) * (g.pages \ s.visited).card + s.frontier.card +
        (∑ w', phiPC g (s.pcs w')) + s.active.toNat := rfl
  have hsum := sum_comp_update s.pcs w (PC.mark u) (phiPC g)
  rw [h, show phiPC g PC.claim = 0 from rfl,
    show phiPC g (PC.mark u) = 0 from rfl] at hsum
  have hc : (s.frontier.erase u).card + 1 = s.frontier.card :=
    Finset.card_erase_add_one hu
  rw [h1, h2]
  omega

/-- A fresh visit strictly decreases the measure. -/
theorem phi_markNew (hinv : CrawlInv g s) {u : V} (h : s.pcs w = PC.mark u)
    (hv : u ∉ s.visited) :
    phi g { s with visited := insert u s.visited,
                   pcs := Function.update s.pcs w (PC.scrape u) } < phi g s := by
  have hup : u ∈ g.pages := reach_pages (hinv.mark_reach w u h)
  have h1 : phi g { s with visited := insert u s.visited,
                            pcs := Function.update s.pcs w (PC.scrape u) } =
      (g.pages.card + 2) * (g.pages \ insert u s.visited).card +
        s.frontier.card +
        (∑ w', phiPC g (Function.update s.pcs w (PC.scrape u) w')) +
        s.active.toNat := rfl
  have h2 : phi g s =
      (g.pages.card + 2) * (g.pages \ s.visited).card + s.frontier.card +
        (∑ w', phiPC g (s.pcs w')) + s.active.toNat := rfl
  have hsd : g.pages \ insert u s.visited = (g.pages \ s.visited).erase u := by
    ext x
    simp only [Finset.mem_sdiff, Finset.mem_erase, Finset.mem_insert]
    tauto
  have humem : u ∈ g.pages \ s.visited := Finset.mem_sdiff.mpr ⟨hup, hv⟩
  have hA : ((g.pages \ s.visited).erase u).card + 1 =
      (g.pages \ s.visited).card := Finset.card_erase_add_one humem
  have hmul : (g.pages.card + 2) * (g.pages \ s.visited).card =
      (g.pages.card + 2) * ((g.pages \ s.visited).erase u).card +
        (g.pages.card + 2) := by
    rw [← hA]
    ring
  have hsum := sum_comp_update s.pcs w (PC.scrape u) (phiPC g)
  rw [h, show phiPC g (PC.mark u) = 0 from rfl,
    show phiPC g (PC.scrape u) = g.pages.card + 1 from rfl] at hsum
  rw [h1, h2, hsd, hmul]
  omega

/-- The scrape-and-push of a fresh page strictly decreases the measure. -/
theorem phi_scrape (hinv : CrawlInv g s) {u : V} (h : s.pcs w = PC.scrape u) :
    phi g { s with frontier := s.frontier ∪ g.out u,
                   images := s.images ∪ g.imgs u,
                   pcs := Function.update s.pcs w PC.claim } < phi g s := by
  have hup : u ∈ g.pages := reach_pages (hinv.scrape_reach w u h)
  have h1 : phi g { s with frontier := s.frontier ∪ g.out u,
                            images := s.images ∪ g.imgs u,
                            pcs := Function.update s.pcs w PC.claim } =
      (g.pages.card + 2) * (g.pages \ s.visited).card +
        (s.frontier ∪ g.out u).card +
        (∑ w', phiPC g (Function.update s.pcs w PC.claim w')) +
        s.active.toNat := rfl
  have h2 : phi g s =
      (g.pages.card + 2) * (g.pages \ s.visited).card + s.frontier.card +
        (∑ w', phiPC g (s.pcs w')) + s.active.toNat := rfl
  have hB : (s.frontier ∪ g.out u).card ≤ s.frontier.card + g.pages.card := by
    calc (s.frontier ∪ g.out u).card ≤ s.frontier.card + (g.out u).card :=
          Finset.card_union_le _ _
      _ ≤ s.frontier.card + g.pages.card :=
          Nat.add_le_add_left (Finset.card_le_card (g.closed u hup)) _
  have hsum := sum_comp_update s.pcs w PC.claim (phiPC g)
  rw [h, show phiPC g (PC.scrape u) = g.pages.card + 1 from rfl,
    show phiPC g PC.claim = 0 from rfl] at hsum
  rw [h1, h2]
  omega

end PhiLemmas

/-! ### Liveness: every fair run terminates

The measure `phi` weakly decreases along every step.  Once it has reached
its minimum, the strictly decreasing steps (pop, fresh visit, scrape,
termination) can no longer occur, which pins down what each worker can do;
fairness then forces a contradiction unless every worker has terminated.
-/

section Liveness

variable {V : Type} [DecidableEq V] {g : CGraph V} {N : ℕ} (E : Exec g N)

/-- The measure weakly decreases along every step. -/
theorem phi_step {w : Fin N} {s s' : Config V N}
    (hstep : WStep g w s s') (hinv : CrawlInv g s) : phi g s' ≤ phi g s := by
  cases hstep
  case incr h h' =>
    rw [h']
    exact le_of_eq (phi_incr hinv h)
  case claimPop u h hu h' =>
    rw [h']
    exact le_of_lt (phi_pop h hu)
  case claimEmpty h he h' =>
    rw [h']
    exact le_of_eq (phi_claimEmpty h)
  case markSkip u h hv h' =>
    rw [h']
    exact le_of_eq (phi_markSkip h)
  case markNew u h hv h' =>
    rw [h']
    exact le_of_lt (phi_markNew hinv h hv)
  case scrapeStep u h h' =>
    rw [h']
    exact le_of_lt (phi_scrape hinv h)
  case decrStep h h' =>
    rw [h']
    exact le_of_eq (phi_decr hinv h)
  case spinDone h h' =>
    rw [h']
    exact le_of_lt (phi_spinDone h)
  case spinSleep a h ha h' =>
    rw [h']
    exact le_of_eq (phi_poll (PC.spin a) PC.sleeping h rfl rfl)
  case sleepStep h h' =>
    rw [h']
    exact le_of_eq (phi_poll PC.sleeping PC.readQ h rfl rfl)
  case readQBreak h hq h' =>
    rw [h']
    exact le_of_eq (phi_poll PC.readQ PC.idle h rfl rfl)
  case readQEmpty h hq h' =>
    rw [h']
    exact le_of_eq (phi_poll PC.readQ PC.readA h rfl rfl)
  case readAStep h h' =>
    rw [h']
    exact le_of_eq (phi_poll PC.readA (PC.spin s.active) h rfl rfl)
  case doneStutter h h' =>
    rw [h']

/-- The measure is antitone along a run. -/
theorem phi_antitone (hN : 1 ≤ N) :
    ∀ {i j : ℕ}, i ≤ j → phi g (E.states j) ≤ phi g (E.states i) := by
  intro i j hij
  induction j, hij using Nat.le_induction with
  | base => exact le_refl _
  | succ j hij ih => exact (phi_step (E.step j) (inv_all E hN j)).trans ih

/-- The measure attains a minimum along the run. -/
theorem phi_min_exists : ∃ T, ∀ i, phi g (E.states T) ≤ phi g (E.states i) := by
  obtain ⟨n, ⟨i, hi⟩, hmin⟩ := (wellFounded_lt (α := ℕ)).has_min
    {n | ∃ i, phi g (E.states i) = n} ⟨phi g (E.states 0), 0, rfl⟩
  refine ⟨i, fun j => ?_⟩
  rw [hi]
  by_contra hlt
  push_neg at hlt
  exact hmin _ ⟨j, rfl⟩ hlt

/-- From the minimum on, the measure is constant, step by step. -/
theorem tail_step_eq (hN : 1 ≤ N) (T : ℕ)
    (hT : ∀ i, T ≤ i → phi g (E.states i) = phi g (E.states T))
    (j : ℕ) (hj : T ≤ j) :
    phi g (E.states (j + 1)) = phi g (E.states j) := by
  rw [hT j hj, hT (j + 1) (by omega)]

/-- In the tail, a worker at its `SPOP` always observes the queue empty
(a pop would strictly decrease the measure) and heads to its `DECR`. -/
theorem tail_claim (hN : 1 ≤ N) (T : ℕ)
    (hT : ∀ i, T ≤ i → phi g (E.states i) = phi g (E.states T))
    (j : ℕ) (hj : T ≤ j)
    (hp : (E.states j).pcs (E.sched j) = PC.claim) :
    (E.states j).frontier = ∅ ∧ (E.states (j + 1)).pcs (E.sched j) = PC.decr := by
  rcases step_of_claim (E.step j) hp with ⟨he, h'⟩ | ⟨u, hu, h'⟩
  · refine ⟨he, ?_⟩
    rw [h']
    exact Function.update_same _ _ _
  · exfalso
    have heq := tail_step_eq E hN T hT j hj
    rw [h'] at heq
    exact Nat.ne_of_lt (phi_pop hp hu) heq

/-- In the tail, a worker at its `SADD` always hits a duplicate (a fresh
visit would strictly decrease the measure) and skips back to claiming. -/
theorem tail_mark (hN : 1 ≤ N) (T : ℕ)
    (hT : ∀ i, T ≤ i → phi g (E.states i) = phi g (E.states T))
    (j : ℕ) (hj : T ≤ j) {u : V}
    (hp : (E.states j).pcs (E.sched j) = PC.mark u) :
    u ∈ (E.states j).visited ∧
      (E.states (j + 1)).pcs (E.sched j) = PC.claim := by
  rcases step_of_mark (E.step j) hp with ⟨hv, h'⟩ | ⟨hv, h'⟩
  · refine ⟨hv, ?_⟩
    rw [h']
    exact Function.update_same _ _ _
  · exfalso
    have heq := tail_step_eq E hN T hT j hj
    rw [h'] at heq
    exact Nat.ne_of_lt (phi_markNew (inv_all E hN j) hp hv) heq

/-- In the tail, no scheduled worker is ever at a scrape (it would strictly
decrease the measure). -/
theorem tail_scrape_false (hN : 1 ≤ N) (T : ℕ)
    (hT : ∀ i, T ≤ i → phi g (E.states i) = phi g (E.states T))
    (j : ℕ) (hj : T ≤ j) {u : V}
    (hp : (E.states j).pcs (E.sched j) = PC.scrape u) : False := by
  have h' := step_of_scrape (E.step j) hp
  have heq := tail_step_eq E hN T hT j hj
  rw [h'] at heq
  exact Nat.ne_of_lt (phi_scrape (inv_all E hN j) hp) heq

/-- In the tail, a scheduled worker at the top of the polling loop always
holds a non-zero value (termination would strictly decrease the measure)
and goes to sleep. -/
theorem tail_spin (hN : 1 ≤ N) (T : ℕ)
    (hT : ∀ i, T ≤ i → phi g (E.states i) = phi g (E.states T))
    (j : ℕ) (hj : T ≤ j) {a : Int}
    (hp : (E.states j).pcs (E.sched j) = PC.spin a) :
    a ≠ 0 ∧ (E.states (j + 1)).pcs (E.sched j) = PC.sleeping := by
  rcases step_of_spin (E.step j) hp with ⟨ha, h'⟩ | ⟨ha, h'⟩
  · exfalso
    have heq := tail_step_eq E hN T hT j hj
    rw [h'] at heq
    subst ha
    exact Nat.ne_of_lt (phi_spinDone hp) heq
  · refine ⟨ha, ?_⟩
    rw [h']
    exact Function.update_same _ _ _

/-- In the tail the crawl queue is frozen across one step. -/
theorem tail_frontier_step (hN : 1 ≤ N) (T : ℕ)
    (hT : ∀ i, T ≤ i → phi g (E.states i) = phi g (E.states T))
    (j : ℕ) (hj : T ≤ j) :
    (E.states (j + 1)).frontier = (E.states j).frontier := by
  have hstep := E.step j
  cases hstep
  case claimPop u h hu h' =>
    exfalso
    have heq := tail_step_eq E hN T hT j hj
    rw [h'] at heq
    exact Nat.ne_of_lt (phi_pop h hu) heq
  case scrapeStep u h h' =>
    exfalso
    have heq := tail_step_eq E hN T hT j hj
    rw [h'] at heq
    exact Nat.ne_of_lt (phi_scrape (inv_all E hN j) h) heq
  all_goals (rename_i h'; rw [h'])

/-- In the tail the crawl queue is frozen. -/
theorem tail_frontier (hN : 1 ≤ N) (T : ℕ)
    (hT : ∀ i, T ≤ i → phi g (E.states i) = phi g (E.states T)) :
    ∀ j, T ≤ j → (E.states j).frontier = (E.states T).frontier := by
  intro j hj
  induction j, hj using Nat.le_induction with
  | base => rfl
  | succ j hj ih =>
    rw [tail_frontier_step E hN T hT j hj]
    exact ih

/-- First instant at or after `i` where worker `w` is scheduled. -/
theorem nextPick (w : Fin N) (i : ℕ) :
    ∃ j, i ≤ j ∧ E.sched j = w ∧ ∀ k, i ≤ k → k < j → E.sched k ≠ w := by
  haveI : DecidablePred fun j => i ≤ j ∧ E.sched j = w := fun j =>
    instDecidableAnd
  have hfair : ∃ j, i ≤ j ∧ E.sched j = w := E.fair w i
  exact ⟨Nat.find hfair, (Nat.find_spec hfair).1, (Nat.find_spec hfair).2,
    fun k hik hk hke => Nat.find_min hfair hk ⟨hik, hke⟩⟩

/-- A worker's program counter is unchanged while it is not scheduled. -/
theorem pc_stable (w : Fin N) (i : ℕ) :
    ∀ j, i ≤ j → (∀ k, i ≤ k → k < j → E.sched k ≠ w) →
      (E.states j).pcs w = (E.states i).pcs w := by
  intro j
  induction j with
  | zero =>
    intro h0 _
    have : i = 0 := Nat.le_zero.mp h0
    rw [this]
  | succ j ih =>
    intro hij hnp
    by_cases hle : i ≤ j
    · have hne : E.sched j ≠ w := hnp j hle (Nat.lt_succ_self j)
      rw [wstep_pcs_other (E.step j) (Ne.symm hne)]
      exact ih hle fun k hk hk2 => hnp k hk (Nat.lt_succ_of_lt hk2)
    · have : i = j + 1 := by omega
      rw [this]

end Liveness

section LivenessNonempty

variable {V : Type} [DecidableEq V] {g : CGraph V} {N : ℕ} (E : Exec g N)

/-- Tail contradiction, non-empty queue: a worker at its `SPOP`. -/
theorem la_claim (hN : 1 ≤ N) (T : ℕ)
    (hT : ∀ i, T ≤ i → phi g (E.states i) = phi g (E.states T))
    (hFne : (E.states T).frontier ≠ ∅)
    (i : ℕ) (hi : T ≤ i) (w : Fin N)
    (hp : (E.states i).pcs w = PC.claim) : False := by
  obtain ⟨j, hij, hsj, hnp⟩ := nextPick E w i
  have hje : T ≤ j := hi.trans hij
  have hp2 : (E.states j).pcs (E.sched j) = PC.claim := by
    rw [hsj, pc_stable E w i j hij hnp]
    exact hp
  have h := (tail_claim E hN T hT j hje hp2).1
  rw [tail_frontier E hN T hT j hje] at h
  exact hFne h

/-- Tail contradiction, non-empty queue: a worker before its `INCR`. -/
theorem la_idle (hN : 1 ≤ N) (T : ℕ)
    (hT : ∀ i, T ≤ i → phi g (E.states i) = phi g (E.states T))
    (hFne : (E.states T).frontier ≠ ∅)
    (i : ℕ) (hi : T ≤ i) (w : Fin N)
    (hp : (E.states i).pcs w = PC.idle) : False := by
  obtain ⟨j, hij, hsj, hnp⟩ := nextPick E w i
  have hje : T ≤ j := hi.trans hij
  have hp2 : (E.states j).pcs (E.sched j) = PC.idle := by
    rw [hsj, pc_stable E w i j hij hnp]
    exact hp
  have h' := step_of_idle (E.step j) hp2
  have hnext : (E.states (j + 1)).pcs w = PC.claim := by
    rw [h']
    show Function.update (E.states j).pcs (E.sched j) PC.claim w = PC.claim
    rw [hsj]
    exact Function.update_same _ _ _
  exact la_claim E hN T hT hFne (j + 1) (by omega) w hnext

/-- Tail contradiction, non-empty queue: a worker at its `SADD`. -/
theorem la_mark (hN : 1 ≤ N) (T : ℕ)
    (hT : ∀ i, T ≤ i → phi g (E.states i) = phi g (E.states T))
    (hFne : (E.states T).frontier ≠ ∅)
    (i : ℕ) (hi : T ≤ i) (w : Fin N) {u : V}
    (hp : (E.states i).pcs w = PC.mark u) : False := by
  obtain ⟨j, hij, hsj, hnp⟩ := nextPick E w i
  have hje : T ≤ j := hi.trans hij
  have hp2 : (E.states j).pcs (E.sched j) = PC.mark u := by
    rw [hsj, pc_stable E w i j hij hnp]
    exact hp
  have hnext : (E.states (j + 1)).pcs w = PC.claim := by
    rw [← hsj]
    exact (tail_mark E hN T hT j hje hp2).2
  exact la_claim E hN T hT hFne (j + 1) (by omega) w hnext

/-- Tail contradiction: a worker at a scrape. -/
theorem la_scrape (hN : 1 ≤ N) (T : ℕ)
    (hT : ∀ i, T ≤ i → phi g (E.states i) = phi g (E.states T))
    (i : ℕ) (hi : T ≤ i) (w : Fin N) {u : V}
    (hp : (E.states i).pcs w = PC.scrape u) : False := by
  obtain ⟨j, hij, hsj, hnp⟩ := nextPick E w i
  have hje : T ≤ j := hi.trans hij
  have hp2 : (E.states j).pcs (E.sched j) = PC.scrape u := by
    rw [hsj, pc_stable E w i j hij hnp]
    exact hp
  exact tail_scrape_false E hN T hT j hje hp2

/-- Tail contradiction, non-empty queue: a worker at the `SCARD`. -/
theorem la_readQ (hN : 1 ≤ N) (T : ℕ)
    (hT : ∀ i, T ≤ i → phi g (E.states i) = phi g (E.states T))
    (hFne : (E.states T).frontier ≠ ∅)
    (i : ℕ) (hi : T ≤ i) (w : Fin N)
    (hp : (E.states i).pcs w = PC.readQ) : False := by
  obtain ⟨j, hij, hsj, hnp⟩ := nextPick E w i
  have hje : T ≤ j := hi.trans hij
  have hp2 : (E.states j).pcs (E.sched j) = PC.readQ := by
    rw [hsj, pc_stable E w i j hij hnp]
    exact hp
  rcases step_of_readQ (E.step j) hp2 with ⟨_, h'⟩ | ⟨he, _⟩
  · have hnext : (E.states (j + 1)).pcs w = PC.idle := by
      rw [h']
      show Function.update (E.states j).pcs (E.sched j) PC.idle w = PC.idle
      rw [hsj]
      exact Function.update_same _ _ _
    exact la_idle E hN T hT hFne (j + 1) (by omega) w hnext
  · rw [tail_frontier E hN T hT j hje] at he
    exact hFne he

/-- Tail contradiction, non-empty queue: a sleeping worker. -/
theorem la_sleeping (hN : 1 ≤ N) (T : ℕ)
    (hT : ∀ i, T ≤ i → phi g (E.states i) = phi g (E.states T))
    (hFne : (E.states T).frontier ≠ ∅)
    (i : ℕ) (hi : T ≤ i) (w : Fin N)
    (hp : (E.states i).pcs w = PC.sleeping) : False := by
  obtain ⟨j, hij, hsj, hnp⟩ := nextPick E w i
  have hje : T ≤ j := hi.trans hij
  have hp2 : (E.states j).pcs (E.sched j) = PC.sleeping := by
    rw [hsj, pc_stable E w i j hij hnp]
    exact hp
  have h' := step_of_sleeping (E.step j) hp2
  have hnext : (E.states (j + 1)).pcs w = PC.readQ := by
    rw [h']
    show Function.update (E.states j).pcs (E.sched j) PC.readQ w = PC.readQ
    rw [hsj]
    exact Function.update_same _ _ _
  exact la_readQ E hN T hT hFne (j + 1) (by omega) w hnext

/-- Tail contradiction, non-empty queue: a worker at the top of the
polling loop. -/
theorem la_spin (hN : 1 ≤ N) (T : ℕ)
    (hT : ∀ i, T ≤ i → phi g (E.states i) = phi g (E.states T))
    (hFne : (E.states T).frontier ≠ ∅)
    (i : ℕ) (hi : T ≤ i) (w : Fin N) {a : Int}
    (hp : (E.states i).pcs w = PC.spin a) : False := by
  obtain ⟨j, hij, hsj, hnp⟩ := nextPick E w i
  have hje : T ≤ j := hi.trans hij
  have hp2 : (E.states j).pcs (E.sched j) = PC.spin a := by
    rw [hsj, pc_stable E w i j hij hnp]
    exact hp
  have hnext : (E.states (j + 1)).pcs w = PC.sleeping := by
    rw [← hsj]
    exact (tail_spin E hN T hT j hje hp2).2
  exact la_sleeping E hN T hT hFne (j + 1) (by omega) w hnext

/-- Tail contradiction, non-empty queue: a worker at the `DECR`. -/
theorem la_decr (hN : 1 ≤ N) (T : ℕ)
    (hT : ∀ i, T ≤ i → phi g (E.states i) = phi g (E.states T))
    (hFne : (E.states T).frontier ≠ ∅)
    (i : ℕ) (hi : T ≤ i) (w : Fin N)
    (hp : (E.states i).pcs w = PC.decr) : False := by
  obtain ⟨j, hij, hsj, hnp⟩ := nextPick E w i
  have hje : T ≤ j := hi.trans hij
  have hp2 : (E.states j).pcs (E.sched j) = PC.decr := by
    rw [hsj, pc_stable E w i j hij hnp]
    exact hp
  have h' := step_of_decr (E.step j) hp2
  have hnext : (E.states (j + 1)).pcs w =
      PC.spin ((E.states j).active - 1) := by
    rw [h']
    show Function.update (E.states j).pcs (E.sched j)
      (PC.spin ((E.states j).active - 1)) w = PC.spin ((E.states j).active - 1)
    rw [hsj]
    exact Function.update_same _ _ _
  exact la_spin E hN T hT hFne (j + 1) (by omega) w hnext

/-- Tail contradiction, non-empty queue: a worker at the `GET`. -/
theorem la_readA (hN : 1 ≤ N) (T : ℕ)
    (hT : ∀ i, T ≤ i → phi g (E.states i) = phi g (E.states T))
    (hFne : (E.states T).frontier ≠ ∅)
    (i : ℕ) (hi : T ≤ i) (w : Fin N)
    (hp : (E.states i).pcs w = PC.readA) : False := by
  obtain ⟨j, hij, hsj, hnp⟩ := nextPick E w i
  have hje : T ≤ j := hi.trans hij
  have hp2 : (E.states j).pcs (E.sched j) = PC.readA := by
    rw [hsj, pc_stable E w i j hij hnp]
    exact hp
  have h' := step_of_readA (E.step j) hp2
  have hnext : (E.states (j + 1)).pcs w = PC.spin (E.states j).active := by
    rw [h']
    show Function.update (E.states j).pcs (E.sched j)
      (PC.spin (E.states j).active) w = PC.spin (E.states j).active
    rw [hsj]
    exact Function.update_same _ _ _
  exact la_spin E hN T hT hFne (j + 1) (by omega) w hnext

/-- In the tail the queue cannot be non-empty unless every worker is
terminated. -/
theorem tail_fne_false (hN : 1 ≤ N) (T : ℕ)
    (hT : ∀ i, T ≤ i → phi g (E.states i) = phi g (E.states T))
    (hFne : (E.states T).frontier ≠ ∅)
    (hnd : ¬ allDone (E.states T)) : False := by
  obtain ⟨w, hw⟩ := not_forall.mp hnd
  cases hpc : (E.states T).pcs w
  case idle => exact la_idle E hN T hT hFne T (le_refl T) w hpc
  case claim => exact la_claim E hN T hT hFne T (le_refl T) w hpc
  case mark u => exact la_mark E hN T hT hFne T (le_refl T) w hpc
  case scrape u => exact la_scrape E hN T hT T (le_refl T) w hpc
  case decr => exact la_decr E hN T hT hFne T (le_refl T) w hpc
  case spin a => exact la_spin E hN T hT hFne T (le_refl T) w hpc
  case sleeping => exact la_sleeping E hN T hT hFne T (le_refl T) w hpc
  case readQ => exact la_readQ E hN T hT hFne T (le_refl T) w hpc
  case readA => exact la_readA E hN T hT hFne T (le_refl T) w hpc
  case done => exact hw hpc

end LivenessNonempty

section LivenessEmpty

variable {V : Type} [DecidableEq V] {g : CGraph V} {N : ℕ} (E : Exec g N)

/-- A parked worker is not counted by the active counter. -/
theorem parked_not_active {pc : PC V} (h : isParkedPC pc = true) :
    isActivePC pc = false := by
  cases pc <;> first | rfl | exact Bool.noConfusion h

/-- With the queue frozen empty, parked workers stay parked across one
step. -/
theorem tail_parked_step (hN : 1 ≤ N) (T : ℕ)
    (hT : ∀ i, T ≤ i → phi g (E.states i) = phi g (E.states T))
    (hFe : (E.states T).frontier = ∅)
    (j : ℕ) (hj : T ≤ j) (w : Fin N)
    (hp : isParkedPC ((E.states j).pcs w) = true) :
    isParkedPC ((E.states (j + 1)).pcs w) = true := by
  by_cases hw : E.sched j = w
  · cases hpc : (E.states j).pcs w with
    | idle => rw [hpc] at hp; exact Bool.noConfusion hp
    | claim => rw [hpc] at hp; exact Bool.noConfusion hp
    | mark u => rw [hpc] at hp; exact Bool.noConfusion hp
    | scrape u => rw [hpc] at hp; exact Bool.noConfusion hp
    | decr => rw [hpc] at hp; exact Bool.noConfusion hp
    | spin a =>
      have hnext := (tail_spin E hN T hT j hj (by rw [hw]; exact hpc)).2
      rw [hw] at hnext
      rw [hnext]
      rfl
    | sleeping =>
      have h' := step_of_sleeping (E.step j) (by rw [hw]; exact hpc)
      have hnext : (E.states (j + 1)).pcs w = PC.readQ := by
        rw [h']
        show Function.update (E.states j).pcs (E.sched j) PC.readQ w = PC.readQ
        rw [hw]
        exact Function.update_same _ _ _
      rw [hnext]
      rfl
    | readQ =>
      rcases step_of_readQ (E.step j) (by rw [hw]; exact hpc) with
        ⟨hne, _⟩ | ⟨_, h'⟩
      · rw [tail_frontier E hN T hT j hj] at hne
        exact absurd hFe hne
      · have hnext : (E.states (j + 1)).pcs w = PC.readA := by
          rw [h']
          show Function.update (E.states j).pcs (E.sched j) PC.readA w = PC.readA
          rw [hw]
          exact Function.update_same _ _ _
        rw [hnext]
        rfl
    | readA =>
      have h' := step_of_readA (E.step j) (by rw [hw]; exact hpc)
      have hnext : (E.states (j + 1)).pcs w =
          PC.spin (E.states j).active := by
        rw [h']
        show Function.update (E.states j).pcs (E.sched j)
          (PC.spin (E.states j).active) w = PC.spin (E.states j).active
        rw [hw]
        exact Function.update_same _ _ _
      rw [hnext]
      rfl
    | done =>
      have h' := step_of_done (E.step j) (by rw [hw]; exact hpc)
      rw [h', hpc]
      rfl
  · rw [wstep_pcs_other (E.step j) (Ne.symm hw)]
    exact hp

/-- With the queue frozen empty, parked workers stay parked. -/
theorem tail_parked_persist (hN : 1 ≤ N) (T : ℕ)
    (hT : ∀ i, T ≤ i → phi g (E.states i) = phi g (E.states T))
    (hFe : (E.states T).frontier = ∅)
    (j0 : ℕ) (hj0 : T ≤ j0) (w : Fin N)
    (hp : isParkedPC ((E.states j0).pcs w) = true) :
    ∀ j, j0 ≤ j → isParkedPC ((E.states j).pcs w) = true := by
  intro j hj
  induction j, hj using Nat.le_induction with
  | base => exact hp
  | succ j hj ih => exact tail_parked_step E hN T hT hFe j (hj0.trans hj) w ih

/-- Tail step: a worker at its `DECR` parks at the next pick. -/
theorem park_from_decr (hN : 1 ≤ N) (T : ℕ)
    (hT : ∀ i, T ≤ i → phi g (E.states i) = phi g (E.states T))
    (i : ℕ) (hi : T ≤ i) (w : Fin N)
    (hp : (E.states i).pcs w = PC.decr) :
    ∃ j0, T ≤ j0 ∧ isParkedPC ((E.states j0).pcs w) = true := by
  obtain ⟨j, hij, hsj, hnp⟩ := nextPick E w i
  have hp2 : (E.states j).pcs (E.sched j) = PC.decr := by
    rw [hsj, pc_stable E w i j hij hnp]
    exact hp
  have h' := step_of_decr (E.step j) hp2
  have hnext : (E.states (j + 1)).pcs w =
      PC.spin ((E.states j).active - 1) := by
    rw [h']
    show Function.update (E.states j).pcs (E.sched j)
      (PC.spin ((E.states j).active - 1)) w = PC.spin ((E.states j).active - 1)
    rw [hsj]
    exact Function.update_same _ _ _
  refine ⟨j + 1, by omega, ?_⟩
  rw [hnext]
  rfl

/-- Tail step: a worker at its `SPOP` parks within two picks. -/
theorem park_from_claim (hN : 1 ≤ N) (T : ℕ)
    (hT : ∀ i, T ≤ i → phi g (E.states i) = phi g (E.states T))
    (i : ℕ) (hi : T ≤ i) (w : Fin N)
    (hp : (E.states i).pcs w = PC.claim) :
    ∃ j0, T ≤ j0 ∧ isParkedPC ((E.states j0).pcs w) = true := by
  obtain ⟨j, hij, hsj, hnp⟩ := nextPick E w i
  have hje : T ≤ j := hi.trans hij
  have hp2 : (E.states j).pcs (E.sched j) = PC.claim := by
    rw [hsj, pc_stable E w i j hij hnp]
    exact hp
  have hnext : (E.states (j + 1)).pcs w = PC.decr := by
    rw [← hsj]
    exact (tail_claim E hN T hT j hje hp2).2
  exact park_from_decr E hN T hT (j + 1) (by omega) w hnext

/-- Tail step: a worker at its `SADD` parks within three picks. -/
theorem park_from_mark (hN : 1 ≤ N) (T : ℕ)
    (hT : ∀ i, T ≤ i → phi g (E.states i) = phi g (E.states T))
    (i : ℕ) (hi : T ≤ i) (w : Fin N) {u : V}
    (hp : (E.states i).pcs w = PC.mark u) :
    ∃ j0, T ≤ j0 ∧ isParkedPC ((E.states j0).pcs w) = true := by
  obtain ⟨j, hij, hsj, hnp⟩ := nextPick E w i
  have hje : T ≤ j := hi.trans hij
  have hp2 : (E.states j).pcs (E.sched j) = PC.mark u := by
    rw [hsj, pc_stable E w i j hij hnp]
    exact hp
  have hnext : (E.states (j + 1)).pcs w = PC.claim := by
    rw [← hsj]
    exact (tail_mark E hN T hT j hje hp2).2
  exact park_from_claim E hN T hT (j + 1) (by omega) w hnext

/-- Tail step: a worker before its `INCR` parks within three picks. -/
theorem park_from_idle (hN : 1 ≤ N) (T : ℕ)
    (hT : ∀ i, T ≤ i → phi g (E.states i) = phi g (E.states T))
    (i : ℕ) (hi : T ≤ i) (w : Fin N)
    (hp : (E.states i).pcs w = PC.idle) :
    ∃ j0, T ≤ j0 ∧ isParkedPC ((E.states j0).pcs w) = true := by
  obtain ⟨j, hij, hsj, hnp⟩ := nextPick E w i
  have hp2 : (E.states j).pcs (E.sched j) = PC.idle := by
    rw [hsj, pc_stable E w i j hij hnp]
    exact hp
  have h' := step_of_idle (E.step j) hp2
  have hnext : (E.states (j + 1)).pcs w = PC.claim := by
    rw [h']
    show Function.update (E.states j).pcs (E.sched j) PC.claim w = PC.claim
    rw [hsj]
    exact Function.update_same _ _ _
  exact park_from_claim E hN T hT (j + 1) (by omega) w hnext

/-- In the tail, every worker eventually parks. -/
theorem tail_parked_exists (hN : 1 ≤ N) (T : ℕ)
    (hT : ∀ i, T ≤ i → phi g (E.states i) = phi g (E.states T))
    (w : Fin N) :
    ∃ j0, T ≤ j0 ∧ isParkedPC ((E.states j0).pcs w) = true := by
  cases hpc : (E.states T).pcs w
  case idle => exact park_from_idle E hN T hT T (le_refl T) w hpc
  case claim => exact park_from_claim E hN T hT T (le_refl T) w hpc
  case mark u => exact park_from_mark E hN T hT T (le_refl T) w hpc
  case scrape u => exact (la_scrape E hN T hT T (le_refl T) w hpc).elim
  case decr => exact park_from_decr E hN T hT T (le_refl T) w hpc
  case spin a => exact ⟨T, le_refl T, by rw [hpc]; rfl⟩
  case sleeping => exact ⟨T, le_refl T, by rw [hpc]; rfl⟩
  case readQ => exact ⟨T, le_refl T, by rw [hpc]; rfl⟩
  case readA => exact ⟨T, le_refl T, by rw [hpc]; rfl⟩
  case done => exact ⟨T, le_refl T, by rw [hpc]; rfl⟩

/-- In the tail with the queue empty, from some instant on every worker is
parked. -/
theorem tail_parked_uniform (hN : 1 ≤ N) (T : ℕ)
    (hT : ∀ i, T ≤ i → phi g (E.states i) = phi g (E.states T))
    (hFe : (E.states T).frontier = ∅) :
    ∃ T2, T ≤ T2 ∧ ∀ (w : Fin N) (j : ℕ), T2 ≤ j →
      isParkedPC ((E.states j).pcs w) = true := by
  have h := tail_parked_exists E hN T hT
  choose f hf1 hf2 using h
  refine ⟨T ⊔ Finset.univ.sup f, le_sup_left, ?_⟩
  intro w j hj
  have hfw : f w ≤ T ⊔ Finset.univ.sup f :=
    le_sup_of_le_right (Finset.le_sup (Finset.mem_univ w))
  exact tail_parked_persist E hN T hT hFe (f w) (hf1 w) w (hf2 w) j
    (hfw.trans hj)

/-- Once every worker is parked, the active counter reads zero. -/
theorem tail_active_zero (hN : 1 ≤ N) (T2 : ℕ)
    (hpark : ∀ (w : Fin N) (j : ℕ), T2 ≤ j →
      isParkedPC ((E.states j).pcs w) = true)
    (j : ℕ) (hj : T2 ≤ j) : (E.states j).active = 0 := by
  have hc : actCount (E.states j) = 0 := by
    unfold actCount
    refine Finset.sum_eq_zero ?_
    intro w _
    rw [parked_not_active (hpark w j hj)]
    rfl
  rw [(inv_all E hN j).active_eq, hc]
  rfl

/-- Tail contradiction, empty queue: a worker holding `spin 0` must
terminate, strictly decreasing the measure. -/
theorem lb_spin0 (hN : 1 ≤ N) (T : ℕ)
    (hT : ∀ i, T ≤ i → phi g (E.states i) = phi g (E.states T))
    (i : ℕ) (hi : T ≤ i) (w : Fin N)
    (hp : (E.states i).pcs w = PC.spin 0) : False := by
  obtain ⟨j, hij, hsj, hnp⟩ := nextPick E w i
  have hje : T ≤ j := hi.trans hij
  have hp2 : (E.states j).pcs (E.sched j) = PC.spin 0 := by
    rw [hsj, pc_stable E w i j hij hnp]
    exact hp
  exact (tail_spin E hN T hT j hje hp2).1 rfl

/-- Tail contradiction, empty queue: a worker at the `GET` re-reads zero
and then must terminate. -/
theorem lb_readA (hN : 1 ≤ N) (T : ℕ)
    (hT : ∀ i, T ≤ i → phi g (E.states i) = phi g (E.states T))
    (T2 : ℕ) (hT2 : T ≤ T2)
    (hz : ∀ j, T2 ≤ j → (E.states j).active = 0)
    (i : ℕ) (hi : T2 ≤ i) (w : Fin N)
    (hp : (E.states i).pcs w = PC.readA) : False := by
  obtain ⟨j, hij, hsj, hnp⟩ := nextPick E w i
  have hp2 : (E.states j).pcs (E.sched j) = PC.readA := by
    rw [hsj, pc_stable E w i j hij hnp]
    exact hp
  have h' := step_of_readA (E.step j) hp2
  have hnext : (E.states (j + 1)).pcs w = PC.spin (E.states j).active := by
    rw [h']
    show Function.update (E.states j).pcs (E.sched j)
      (PC.spin (E.states j).active) w = PC.spin (E.states j).active
    rw [hsj]
    exact Function.update_same _ _ _
  rw [hz j (hi.trans hij)] at hnext
  exact lb_spin0 E hN T hT (j + 1) (by omega) w hnext

/-- Tail contradiction, empty queue: a worker at the `SCARD`. -/
theorem lb_readQ (hN : 1 ≤ N) (T : ℕ)
    (hT : ∀ i, T ≤ i → phi g (E.states i) = phi g (E.states T))
    (hFe : (E.states T).frontier = ∅)
    (T2 : ℕ) (hT2 : T ≤ T2)
    (hz : ∀ j, T2 ≤ j → (E.states j).active = 0)
    (i : ℕ) (hi : T2 ≤ i) (w : Fin N)
    (hp : (E.states i).pcs w = PC.readQ) : False := by
  obtain ⟨j, hij, hsj, hnp⟩ := nextPick E w i
  have hje : T ≤ j := hT2.trans (hi.trans hij)
  have hp2 : (E.states j).pcs (E.sched j) = PC.readQ := by
    rw [hsj, pc_stable E w i j hij hnp]
    exact hp
  rcases step_of_readQ (E.step j) hp2 with ⟨hne, _⟩ | ⟨_, h'⟩
  · rw [tail_frontier E hN T hT j hje] at hne
    exact absurd hFe hne
  · have hnext : (E.states (j + 1)).pcs w = PC.readA := by
      rw [h']
      show Function.update (E.states j).pcs (E.sched j) PC.readA w = PC.readA
      rw [hsj]
      exact Function.update_same _ _ _
    exact lb_readA E hN T hT T2 hT2 hz (j + 1) (by omega) w hnext

/-- Tail contradiction, empty queue: a sleeping worker. -/
theorem lb_sleeping (hN : 1 ≤ N) (T : ℕ)
    (hT : ∀ i, T ≤ i → phi g (E.states i) = phi g (E.states T))
    (hFe : (E.states T).frontier = ∅)
    (T2 : ℕ) (hT2 : T ≤ T2)
    (hz : ∀ j, T2 ≤ j → (E.states j).active = 0)
    (i : ℕ) (hi : T2 ≤ i) (w : Fin N)
    (hp : (E.states i).pcs w = PC.sleeping) : False := by
  obtain ⟨j, hij, hsj, hnp⟩ := nextPick E w i
  have hp2 : (E.states j).pcs (E.sched j) = PC.sleeping := by
    rw [hsj, pc_stable E w i j hij hnp]
    exact hp
  have h' := step_of_sleeping (E.step j) hp2
  have hnext : (E.states (j + 1)).pcs w = PC.readQ := by
    rw [h']
    show Function.update (E.states j).pcs (E.sched j) PC.readQ w = PC.readQ
    rw [hsj]
    exact Function.update_same _ _ _
  exact lb_readQ E hN T hT hFe T2 hT2 hz (j + 1) (by omega) w hnext

/-- Tail contradiction, empty queue: a worker at the top of the polling
loop. -/
theorem lb_spin (hN : 1 ≤ N) (T : ℕ)
    (hT : ∀ i, T ≤ i → phi g (E.states i) = phi g (E.states T))
    (hFe : (E.states T).frontier = ∅)
    (T2 : ℕ) (hT2 : T ≤ T2)
    (hz : ∀ j, T2 ≤ j → (E.states j).active = 0)
    (i : ℕ) (hi : T2 ≤ i) (w : Fin N) {a : Int}
    (hp : (E.states i).pcs w = PC.spin a) : False := by
  obtain ⟨j, hij, hsj, hnp⟩ := nextPick E w i
  have hje : T ≤ j := hT2.trans (hi.trans hij)
  have hp2 : (E.states j).pcs (E.sched j) = PC.spin a := by
    rw [hsj, pc_stable E w i j hij hnp]
    exact hp
  have hnext : (E.states (j + 1)).pcs w = PC.sleeping := by
    rw [← hsj]
    exact (tail_spin E hN T hT j hje hp2).2
  exact lb_sleeping E hN T hT hFe T2 hT2 hz (j + 1) (by omega) w hnext

/-- In the tail the queue cannot be empty either, unless every worker
terminates. -/
theorem tail_fe_false (hN : 1 ≤ N) (T : ℕ)
    (hT : ∀ i, T ≤ i → phi g (E.states i) = phi g (E.states T))
    (hFe : (E.states T).frontier = ∅)
    (hnd : ∀ i, ¬ allDone (E.states i)) : False := by
  obtain ⟨T2, hT2, hpark⟩ := tail_parked_uniform E hN T hT hFe
  have hz : ∀ j, T2 ≤ j → (E.states j).active = 0 :=
    tail_active_zero E hN T2 hpark
  obtain ⟨w, hw⟩ := not_forall.mp (hnd T2)
  have hpk := hpark w T2 (le_refl T2)
  cases hpc : (E.states T2).pcs w
  case idle => rw [hpc] at hpk; exact Bool.noConfusion hpk
  case claim => rw [hpc] at hpk; exact Bool.noConfusion hpk
  case mark u => rw [hpc] at hpk; exact Bool.noConfusion hpk
  case scrape u => rw [hpc] at hpk; exact Bool.noConfusion hpk
  case decr => rw [hpc] at hpk; exact Bool.noConfusion hpk
  case spin a => exact lb_spin E hN T hT hFe T2 hT2 hz T2 (le_refl T2) w hpc
  case sleeping =>
    exact lb_sleeping E hN T hT hFe T2 hT2 hz T2 (le_refl T2) w hpc
  case readQ => exact lb_readQ E hN T hT hFe T2 hT2 hz T2 (le_refl T2) w hpc
  case readA => exact lb_readA E hN T hT T2 hT2 hz T2 (le_refl T2) w hpc
  case done => exact hw hpc

/-- Every fair run of `RunN` with at least one worker terminates: at some
instant every worker is done. -/
theorem exec_terminates (hN : 1 ≤ N) : ∃ i, allDone (E.states i) := by
  by_contra hno
  push_neg at hno
  have hnd : ∀ i, ¬ allDone (E.states i) := hno
  obtain ⟨T, hmin⟩ := phi_min_exists E
  have hT : ∀ i, T ≤ i → phi g (E.states i) = phi g (E.states T) :=
    fun i hi => le_antisymm (phi_antitone E hN hi) (hmin i)
  by_cases hF : (E.states T).frontier = ∅
  · exact tail_fe_false E hN T hT hF hnd
  · exact tail_fne_false E hN T hT hF (hnd T)

end LivenessEmpty

/-- C1: for every N ≥ 1 workers crawling a finite, closed (no external
links) graph from one seed — modelled by in-memory stand-ins for the
shared store and the fetcher — every fair run of `RunN(N)` reaches an
instant at which all workers have returned (no permanent hang), and at
that instant the Visited set equals the full set of URLs reachable from
the seed. -/
theorem c1_termination_and_coverage :
    ∀ {V : Type} [DecidableEq V] (g : CGraph V) {N : ℕ} (E : Exec g N),
      1 ≤ N →
      ∃ i, allDone (E.states i) ∧
        ∀ v, v ∈ (E.states i).visited ↔ Reach g v := by
  intro V _ g N E hN
  obtain ⟨i, hi⟩ := exec_terminates E hN
  exact ⟨i, hi, visited_eq_reach_of_allDone (inv_all E hN i) hi⟩

/-- C1 witness: the concrete one-worker run on the one-page graph. -/
theorem c1_witness :
    ∃ i, allDone (demoExec.states i) ∧
      ∀ v, v ∈ (demoExec.states i).visited ↔ Reach demoGraph v :=
  c1_termination_and_coverage demoGraph demoExec (le_refl 1)
